import Mathlib

/-!
Shallow embedding of the fallible-vector library (src/lib.rs, src/collect.rs,
src/set_len_on_drop.rs) and verification of its specification.

A vector `Vec<T, A>` is modelled as `Buf T`: the list `data` of the
caller-visible, fully-constructed elements occupying slots `[0, len)`
(so `data.length` is the vector's `len`), together with its capacity `cap`.
The allocator capability is modelled by an oracle `canAlloc : Nat -> Bool`
deciding whether a backing region of a given number of slots can be obtained.
`Vec::try_reserve` grows amortized (`max (2 * cap) (len + additional)`, as in
the standard library's `RawVec::grow_amortized`) and is a no-op when the
capacity already suffices.

Caller-supplied code that may unwind is modelled explicitly:
  * an iterator (`replace_with`, the source of `try_extend`) is an `It`:
    the finite trace `yields` of items its `next()` returns, followed by the
    end behavior `onEnd` of the next call (`exhaust` = return `None`,
    `panicEnd` = the call unwinds), plus `hintAt k`, the lower-bound
    `size_hint` the iterator reports after `k` items were consumed;
  * a `Clone` implementation is a function `Nat -> T -> Option T` giving the
    value produced by the j-th clone call, `none` meaning that call unwinds;
  * a generator passed to `try_resize_with` is a `Nat -> Option T` likewise.

An operation on the vector finishes in one of three ways (`OpResult`):
`ok` (the `Ok(())` path), `allocErr` (returning `Err(TryReserveError)`), or
`panicked` (an unwind: a contract violation such as a bad index or range, the
`unwrap()` of `None` inside `try_splice_in`, or an interruption propagating
out of caller-supplied code).  Each constructor carries the vector state
observable afterwards; on a panic this is the state after `SetLenOnDrop::drop`
has committed the locally tracked length.
-/

namespace FallibleVec

/-- The caller-visible state of a vector: elements of slots `[0, len)` and the
capacity of the backing region. -/
structure Buf (T : Type) where
  data : List T
  cap : Nat
deriving DecidableEq, Repr

/-- Behavior of an iterator when its yields are used up: `next()` returns
`None`, or the call to `next()` unwinds. -/
inductive ItEnd : Type where
  | exhaust : ItEnd
  | panicEnd : ItEnd
deriving DecidableEq, Repr

/-- Trace model of a finite iterator: the items successive `next()` calls
return, what the call after those does, and the lower-bound `size_hint`
reported after `k` items have been consumed. -/
structure It (T : Type) where
  yields : List T
  onEnd : ItEnd
  hintAt : Nat → Nat

/-- Why an operation unwound: a violated precondition (bad index or range),
the `unwrap()` of `None` in the known-remainder phase of `try_splice_in`, or
an interruption raised inside caller-supplied code and propagating unchanged. -/
inductive PanicKind : Type where
  | contract : PanicKind
  | unwrapNone : PanicKind
  | interruption : PanicKind
deriving DecidableEq, Repr

/-- Result of running one operation: the `Ok` path, the `Err(TryReserveError)`
path, or an unwind; each carries the vector state observable afterwards. -/
inductive OpResult (T : Type) where
  | ok : Buf T → OpResult T
  | allocErr : Buf T → OpResult T
  | panicked : PanicKind → Buf T → OpResult T
deriving DecidableEq, Repr

/-- The vector state carried by an operation result, whichever way it ended. -/
def OpResult.buf {T : Type} : OpResult T → Buf T
  | .ok b => b
  | .allocErr b => b
  | .panicked _ b => b

/-- Model of `Vec::try_reserve`: no-op if `len + additional <= cap` already,
otherwise an amortized grow request (`max (2 * cap) (len + additional)`) to
the allocator, which may refuse.  Never changes the visible length. -/
def tryReserve {T : Type} (canAlloc : Nat → Bool) (b : Buf T) (additional : Nat) :
    Option (Buf T) :=
  if b.data.length + additional ≤ b.cap then some b
  else if canAlloc (max (2 * b.cap) (b.data.length + additional)) then
    some ⟨b.data, max (2 * b.cap) (b.data.length + additional)⟩
  else none

/-- Model of `try_push` (src/lib.rs): reserve one slot, write the item at
`slot[len]`, increment the length. -/
def tryPush {T : Type} (canAlloc : Nat → Bool) (b : Buf T) (item : T) : OpResult T :=
  match tryReserve canAlloc b 1 with
  | none => .allocErr b
  | some b' => .ok ⟨b'.data ++ [item], b'.cap⟩

/-- Outcome of `move_tail` (src/lib.rs): reserve `by` slots, then relocate
`[index, len)` to `[index + by, len + by)`.  The reserve happens first, so an
allocator refusal surfaces as `failed` even when `index > len`; after a
successful reserve an out-of-bounds index makes `len - index` underflow, a
fatal contract violation (`oob`, carrying the capacity after the reserve).
The relocation itself never changes the visible length or contents. -/
inductive MoveTailOut (T : Type) where
  | moved : Buf T → MoveTailOut T
  | failed : MoveTailOut T
  | oob : Nat → MoveTailOut T
deriving DecidableEq, Repr

/-- Model of `move_tail` (src/lib.rs). -/
def moveTail {T : Type} (canAlloc : Nat → Bool) (b : Buf T) (index by_ : Nat) :
    MoveTailOut T :=
  match tryReserve canAlloc b by_ with
  | none => .failed
  | some b' => if index ≤ b'.data.length then .moved b' else .oob b'.cap

/-- Model of `try_insert` (src/lib.rs): `move_tail` by one slot, write the
element at `index`, increment the length.  The visible effect of the shift,
the write and the `set_len` together is insertion at `index`. -/
def tryInsert {T : Type} (canAlloc : Nat → Bool) (b : Buf T) (index : Nat) (elem : T) :
    OpResult T :=
  match moveTail canAlloc b index 1 with
  | .failed => .allocErr b
  | .oob c => .panicked .contract ⟨b.data, c⟩
  | .moved b' => .ok ⟨b'.data.take index ++ elem :: b'.data.drop index, b'.cap⟩

/-- The `for item in iter { self.try_push(item)?; }` loop of `try_extend`:
push every remaining yield; a failing push surfaces its error, and when the
yields run out the iterator either reports exhaustion (`Ok`) or its `next()`
unwinds, propagating the interruption. -/
def extendPushLoop {T : Type} (canAlloc : Nat → Bool) (onEnd : ItEnd) :
    List T → Buf T → OpResult T
  | [], b =>
    match onEnd with
    | .exhaust => .ok b
    | .panicEnd => .panicked .interruption b
  | t :: rest, b =>
    match tryPush canAlloc b t with
    | .ok b' => extendPushLoop canAlloc onEnd rest b'
    | r => r

/-- Model of `try_extend` (src/lib.rs): reserve the iterator's lower size
hint up front, then push each item in turn. -/
def tryExtend {T : Type} (canAlloc : Nat → Bool) (b : Buf T) (it : It T) : OpResult T :=
  match tryReserve canAlloc b (it.hintAt 0) with
  | none => .allocErr b
  | some b' => extendPushLoop canAlloc it.onEnd it.yields b'

/-- Model of `try_collect_in` (src/collect.rs): `Vec::new_in(alloc)` followed
by `try_extend`. -/
def tryCollectIn {T : Type} (canAlloc : Nat → Bool) (it : It T) : OpResult T :=
  tryExtend canAlloc ⟨[], 0⟩ it

/-- The clone-and-write loop of `try_extend_from_slice`, running under
`SetLenOnDrop`: the j-th clone call either produces a value, committed by
advancing the local length, or unwinds, in which case the guard commits
exactly the prefix written so far. -/
def efsLoop {T : Type} (cloneF : Nat → T → Option T) :
    List T → Nat → List T → Nat → OpResult T
  | [], _, acc, cap => .ok ⟨acc, cap⟩
  | t :: rest, j, acc, cap =>
    match cloneF j t with
    | none => .panicked .interruption ⟨acc, cap⟩
    | some v => efsLoop cloneF rest (j + 1) (acc ++ [v]) cap

/-- Model of `try_extend_from_slice` (src/lib.rs): reserve `slice.len()`,
then clone and commit each element in order. -/
def tryExtendFromSlice {T : Type} (canAlloc : Nat → Bool) (cloneF : Nat → T → Option T)
    (b : Buf T) (slice : List T) : OpResult T :=
  match tryReserve canAlloc b slice.length with
  | none => .allocErr b
  | some b' => efsLoop cloneF slice 0 b'.data b'.cap

/-- The produce-and-write loop shared by `try_resize`, `try_resize_with` and
`try_new_repeat_item_internal`, running under `SetLenOnDrop`: produce `n`
values with successive calls `produce j`; an unwinding call commits exactly
the prefix produced before it. -/
def fillNLoop {T : Type} (produce : Nat → Option T) :
    Nat → Nat → List T → Nat → OpResult T
  | 0, _, acc, cap => .ok ⟨acc, cap⟩
  | n + 1, j, acc, cap =>
    match produce j with
    | none => .panicked .interruption ⟨acc, cap⟩
    | some v => fillNLoop produce n (j + 1) (acc ++ [v]) cap

/-- Model of `try_resize_with` (src/lib.rs): truncate when shrinking (not
allocation-fallible), no-op when the length already matches, otherwise
reserve the delta and fill with successive generator calls. -/
def tryResizeWith {T : Type} (canAlloc : Nat → Bool) (b : Buf T) (newLen : Nat)
    (f : Nat → Option T) : OpResult T :=
  if newLen < b.data.length then .ok ⟨b.data.take newLen, b.cap⟩
  else if b.data.length < newLen then
    match tryReserve canAlloc b (newLen - b.data.length) with
    | none => .allocErr b
    | some b' => fillNLoop f (newLen - b.data.length) 0 b'.data b'.cap
  else .ok b

/-- Model of `try_resize` (src/lib.rs): like `try_resize_with`, with every
new slot filled by a clone of `item` (the j-th call being `cloneF j item`). -/
def tryResize {T : Type} (canAlloc : Nat → Bool) (cloneF : Nat → T → Option T)
    (b : Buf T) (newLen : Nat) (item : T) : OpResult T :=
  if newLen < b.data.length then .ok ⟨b.data.take newLen, b.cap⟩
  else if b.data.length < newLen then
    match tryReserve canAlloc b (newLen - b.data.length) with
    | none => .allocErr b
    | some b' => fillNLoop (fun j => cloneF j item) (newLen - b.data.length) 0 b'.data b'.cap
  else .ok b

/-- Model of `try_new_repeat_item_internal` (src/lib.rs), starting from the
empty vector produced by `Vec::new` or `Vec::new_in`: when `size > 0`,
reserve `size` slots and fill them with clones of `item`; when `size = 0`
return the empty vector at once, performing no reserve at all (the `item`
argument is consumed and dropped, never stored). -/
def tryNewRepeatItem {T : Type} (canAlloc : Nat → Bool) (cloneF : Nat → T → Option T)
    (item : T) (size : Nat) : OpResult T :=
  if 0 < size then
    match tryReserve canAlloc (⟨[], 0⟩ : Buf T) size with
    | none => .allocErr ⟨[], 0⟩
    | some b' => fillNLoop (fun j => cloneF j item) size 0 b'.data b'.cap
  else .ok ⟨[], 0⟩

/-- Model of `try_with_capacity` and `try_with_capacity_in` (src/lib.rs):
a fresh empty vector followed by `try_reserve size`. -/
def tryWithCapacity (T : Type) (canAlloc : Nat → Bool) (size : Nat) : Option (Buf T) :=
  tryReserve canAlloc (⟨[], 0⟩ : Buf T) size

/-- Outcome of the overwrite phase of `try_splice_in`: the cursor reached the
end of the range with `rest` not yet consumed (`through`), or the iterator
exhausted first, leaving the overwritten data and the cursor position for the
`drain` (`drained`), or a `next()` call unwound (`interrupted`). -/
inductive P1Out (T : Type) where
  | through : List T → List T → P1Out T
  | drained : List T → Nat → P1Out T
  | interrupted : List T → P1Out T
deriving DecidableEq, Repr

/-- The overwrite phase of `try_splice_in` (src/lib.rs): while the cursor is
inside `[start, end)` and items remain, `self[index] = item` (destroy the old
value, store the new one) and advance.  `n` is the remaining width
`end - index` of the range. -/
def spliceOverwrite {T : Type} (onEnd : ItEnd) :
    Nat → List T → Nat → List T → P1Out T
  | 0, data, _, rest => .through data rest
  | n + 1, data, index, rest =>
    match rest with
    | t :: r => spliceOverwrite onEnd n (data.set index t) (index + 1) r
    | [] =>
      match onEnd with
      | .exhaust => .drained data index
      | .panicEnd => .interrupted data

/-- Outcome of the known-remainder fill of `try_splice_in`: all `lb` opened
slots were filled (`filled`, with the iterator's remaining trace), or
`next()` returned `None` and the `unwrap()` of it unwinds (`ranOut`), or
`next()` itself unwound (`interrupted`).  In the two unwinding cases
`SetLenOnDrop` commits the visible prefix written so far; the relocated tail
is leaked, not visible. -/
inductive FillOut (T : Type) where
  | filled : List T → List T → FillOut T
  | ranOut : List T → FillOut T
  | interrupted : List T → FillOut T
deriving DecidableEq, Repr

/-- The known-remainder fill loop of `try_splice_in` (src/lib.rs): write
`replace_with.next().unwrap()` into the next opened slot, `n` times. -/
def spliceFill {T : Type} (onEnd : ItEnd) : Nat → List T → List T → FillOut T
  | 0, acc, rest => .filled acc rest
  | n + 1, acc, rest =>
    match rest with
    | t :: r => spliceFill onEnd n (acc ++ [t]) r
    | [] =>
      match onEnd with
      | .exhaust => .ranOut acc
      | .panicEnd => .interrupted acc

/-- The unbounded-remainder phase of `try_splice_in` (src/lib.rs): collect
whatever the iterator still produces into a standalone vector with
`try_collect_in` (whose hints are those of the original iterator shifted by
the `k` items already consumed); if that vector is nonempty, `move_tail` by
its length at the cursor `i` and relocate its elements into the gap.  A
failure or interruption during collection leaves the spliced vector `d`
exactly as the earlier phases produced it. -/
def splicePhase3 {T : Type} (canAlloc : Nat → Bool) (it : It T) (d : List T)
    (cap : Nat) (i : Nat) (rest : List T) (k : Nat) : OpResult T :=
  match tryCollectIn canAlloc ⟨rest, it.onEnd, fun j => it.hintAt (k + j)⟩ with
  | .allocErr _ => .allocErr ⟨d, cap⟩
  | .panicked pk _ => .panicked pk ⟨d, cap⟩
  | .ok rem =>
    if rem.data.isEmpty then .ok ⟨d, cap⟩
    else
      match moveTail canAlloc ⟨d, cap⟩ i rem.data.length with
      | .failed => .allocErr ⟨d, cap⟩
      | .oob c => .panicked .contract ⟨d, c⟩
      | .moved b' => .ok ⟨b'.data.take i ++ rem.data ++ b'.data.drop i, b'.cap⟩

/-- Phases two and three of `try_splice_in` (src/lib.rs), entered with the
cursor at `e`, the post-overwrite data `d`, and `k` items consumed: when the
lower bound `lb` reported by `size_hint` is nonzero, `move_tail` by `lb`,
temporarily lower the visible length to the cursor, fill the opened slots
(a fault here commits only the new elements produced so far and leaks the
relocated tail), then restore the length; finally hand over to the
unbounded-remainder phase. -/
def splicePhase2 {T : Type} (canAlloc : Nat → Bool) (it : It T) (d : List T)
    (cap : Nat) (e : Nat) (rest : List T) (k lb : Nat) : OpResult T :=
  if lb = 0 then splicePhase3 canAlloc it d cap e rest k
  else
    match moveTail canAlloc ⟨d, cap⟩ e lb with
    | .failed => .allocErr ⟨d, cap⟩
    | .oob c => .panicked .contract ⟨d, c⟩
    | .moved b' =>
      match spliceFill it.onEnd lb (b'.data.take e) rest with
      | .interrupted acc => .panicked .interruption ⟨acc, b'.cap⟩
      | .ranOut acc => .panicked .unwrapNone ⟨acc, b'.cap⟩
      | .filled acc rest₂ =>
          splicePhase3 canAlloc it (acc ++ b'.data.drop e) b'.cap (e + lb) rest₂ (k + lb)

/-- Model of `try_splice_in` (src/lib.rs) for the range `s..e`.
`slice::range` first checks `s <= e <= len`, a violation being a fatal range
error; then the overwrite phase runs, an early exhaustion draining the unused
remainder of the range, and otherwise the known-remainder and
unbounded-remainder phases complete the splice. -/
def trySpliceIn {T : Type} (canAlloc : Nat → Bool) (b : Buf T) (s e : Nat)
    (it : It T) : OpResult T :=
  if s ≤ e ∧ e ≤ b.data.length then
    match spliceOverwrite it.onEnd (e - s) b.data s it.yields with
    | .interrupted d => .panicked .interruption ⟨d, b.cap⟩
    | .drained d i => .ok ⟨d.take i ++ d.drop e, b.cap⟩
    | .through d rest =>
        splicePhase2 canAlloc it d b.cap e rest
          (it.yields.length - rest.length)
          (it.hintAt (it.yields.length - rest.length))
  else .panicked .contract b

/-- An honest, array-like iterator over the elements of `l`: it yields them
in order, then reports exhaustion, and its lower size hint is always the
exact number of elements remaining. -/
def listIt {T : Type} (l : List T) : It T := ⟨l, .exhaust, fun k => l.length - k⟩

/-- The length-capacity well-formedness invariant of a vector state. -/
def Buf.wf {T : Type} (b : Buf T) : Prop := b.data.length ≤ b.cap

instance {T : Type} (b : Buf T) : Decidable b.wf := by
  unfold Buf.wf; infer_instance

/-- One public operation of the library, with its caller-supplied code. -/
inductive Op (T : Type) where
  | push : T → Op T
  | insert : Nat → T → Op T
  | extend : It T → Op T
  | extendFromSlice : (Nat → T → Option T) → List T → Op T
  | resize : (Nat → T → Option T) → Nat → T → Op T
  | resizeWith : Nat → (Nat → Option T) → Op T
  | splice : Nat → Nat → It T → Op T
  | collect : It T → Op T

/-- Run one operation on a vector state (`collect` builds its result from
scratch, replacing the buffer under consideration). -/
def applyOp {T : Type} (canAlloc : Nat → Bool) (b : Buf T) : Op T → OpResult T
  | .push item => tryPush canAlloc b item
  | .insert i item => tryInsert canAlloc b i item
  | .extend it => tryExtend canAlloc b it
  | .extendFromSlice cf sl => tryExtendFromSlice canAlloc cf b sl
  | .resize cf n item => tryResize canAlloc cf b n item
  | .resizeWith n f => tryResizeWith canAlloc b n f
  | .splice s e it => trySpliceIn canAlloc b s e it
  | .collect it => tryCollectIn canAlloc it

/-- Run a sequence of operations, observing the vector state each operation
leaves behind whichever way it ends (`Ok`, allocation error, or unwind). -/
def applySeq {T : Type} (canAlloc : Nat → Bool) (b : Buf T) : List (Op T) → Buf T
  | [] => b
  | op :: ops => applySeq canAlloc (applyOp canAlloc b op).buf ops

/-- The values an operation's caller supplies to the vector: pushed or
inserted items, iterator yields, and the outputs of the caller's clone or
generator calls. -/
def Op.supplies {T : Type} : Op T → T → Prop
  | .push item, x => x = item
  | .insert _ item, x => x = item
  | .extend it, x => x ∈ it.yields
  | .extendFromSlice cf sl, x => ∃ j t, t ∈ sl ∧ cf j t = some x
  | .resize cf _ item, x => ∃ j, cf j item = some x
  | .resizeWith _ f, x => ∃ j, f j = some x
  | .splice _ _ it, x => x ∈ it.yields
  | .collect it, x => x ∈ it.yields

/-- The clone behavior `cf` maps the elements of a list, starting at call
index `j`, to exactly the values `vs` (each call succeeding). -/
def clonesTo {T : Type} (cf : Nat → T → Option T) : Nat → List T → List T → Prop
  | _, [], vs => vs = []
  | j, t :: rest, vs => ∃ v vs₂, cf j t = some v ∧ vs = v :: vs₂ ∧ clonesTo cf (j + 1) rest vs₂

/-- The generator `p` produces exactly the values `vs` on its calls
`j, j + 1, ...` (each call succeeding). -/
def producesTo {T : Type} (p : Nat → Option T) : Nat → List T → Prop
  | _, [] => True
  | j, v :: vs => p j = some v ∧ producesTo p (j + 1) vs

end FallibleVec

namespace FallibleVec

section BasicLemmas

variable {T : Type}

theorem tryReserve_some_inv {canAlloc : Nat → Bool} {b b' : Buf T} {n : Nat}
    (h : tryReserve canAlloc b n = some b') :
    b'.data = b.data ∧ b.cap ≤ b'.cap ∧ b.data.length + n ≤ b'.cap := by
  unfold tryReserve at h
  split at h
  · cases h
    exact ⟨rfl, le_refl _, by assumption⟩
  · split at h
    · cases h
      refine ⟨rfl, ?_, ?_⟩
      · exact le_trans (by omega) (le_max_left _ _)
      · exact le_max_right _ _
    · cases h

theorem tryReserve_true_some (b : Buf T) (n : Nat) :
    ∃ b', tryReserve (fun _ => true) b n = some b' := by
  unfold tryReserve
  split
  · exact ⟨b, rfl⟩
  · exact ⟨⟨b.data, max (2 * b.cap) (b.data.length + n)⟩, by simp⟩

theorem tryReserve_noop {canAlloc : Nat → Bool} {b : Buf T} {n : Nat}
    (h : b.data.length + n ≤ b.cap) : tryReserve canAlloc b n = some b := by
  unfold tryReserve
  simp [h]

theorem tryPush_ok_inv {canAlloc : Nat → Bool} {b b' : Buf T} {t : T}
    (h : tryPush canAlloc b t = .ok b') :
    b'.data = b.data ++ [t] ∧ b.cap ≤ b'.cap ∧ b'.wf := by
  unfold tryPush at h
  cases hr : tryReserve canAlloc b 1 with
  | none => rw [hr] at h; cases h
  | some b₂ =>
    rw [hr] at h
    cases h
    obtain ⟨hd, hc, hl⟩ := tryReserve_some_inv hr
    refine ⟨by rw [hd], hc, ?_⟩
    unfold Buf.wf
    simp [hd]
    omega

theorem tryPush_allocErr_inv {canAlloc : Nat → Bool} {b b' : Buf T} {t : T}
    (h : tryPush canAlloc b t = .allocErr b') : b' = b := by
  unfold tryPush at h
  cases hr : tryReserve canAlloc b 1 with
  | none => rw [hr] at h; cases h; rfl
  | some b₂ => rw [hr] at h; cases h

theorem tryPush_not_panicked {canAlloc : Nat → Bool} {b b' : Buf T} {t : T}
    {pk : PanicKind} : tryPush canAlloc b t ≠ .panicked pk b' := by
  unfold tryPush
  cases hr : tryReserve canAlloc b 1 <;> simp

theorem tryPush_noGrow {canAlloc : Nat → Bool} {b : Buf T} {t : T}
    (h : b.data.length + 1 ≤ b.cap) :
    tryPush canAlloc b t = .ok ⟨b.data ++ [t], b.cap⟩ := by
  unfold tryPush
  rw [tryReserve_noop h]

theorem tryPush_true (b : Buf T) (t : T) :
    ∃ c, b.cap ≤ c ∧ tryPush (fun _ => true) b t = .ok ⟨b.data ++ [t], c⟩ := by
  obtain ⟨b₂, hb₂⟩ := tryReserve_true_some b 1
  obtain ⟨hd, hc, _⟩ := tryReserve_some_inv hb₂
  refine ⟨b₂.cap, hc, ?_⟩
  simp [tryPush, hb₂, hd]

end BasicLemmas

end FallibleVec

namespace FallibleVec

section LoopLemmas

variable {T : Type}

theorem extendPushLoop_ok_inv {canAlloc : Nat → Bool} {oe : ItEnd} :
    ∀ {rest : List T} {b b' : Buf T}, extendPushLoop canAlloc oe rest b = .ok b' →
      oe = .exhaust ∧ b'.data = b.data ++ rest ∧ b.cap ≤ b'.cap ∧ (b.wf → b'.wf) := by
  intro rest
  induction rest with
  | nil =>
    intro b b' h
    cases oe <;> simp [extendPushLoop] at h
    exact ⟨rfl, by simp [h], by simp [h], by simp [h]⟩
  | cons t r ih =>
    intro b b' h
    rw [extendPushLoop] at h
    cases hp : tryPush canAlloc b t with
    | ok b₂ =>
      rw [hp] at h
      obtain ⟨he, hd, hc, hw⟩ := ih h
      obtain ⟨hd₂, hc₂, hw₂⟩ := tryPush_ok_inv hp
      exact ⟨he, by simp [hd, hd₂], le_trans hc₂ hc, fun _ => hw hw₂⟩
    | allocErr b₂ => rw [hp] at h; cases h
    | panicked pk b₂ => rw [hp] at h; cases h

theorem extendPushLoop_allocErr_inv {canAlloc : Nat → Bool} {oe : ItEnd} :
    ∀ {rest : List T} {b b' : Buf T}, extendPushLoop canAlloc oe rest b = .allocErr b' →
      (∃ m, b'.data = b.data ++ rest.take m) ∧ b.cap ≤ b'.cap ∧ (b.wf → b'.wf) := by
  intro rest
  induction rest with
  | nil =>
    intro b b' h
    cases oe <;> simp [extendPushLoop] at h
  | cons t r ih =>
    intro b b' h
    rw [extendPushLoop] at h
    cases hp : tryPush canAlloc b t with
    | ok b₂ =>
      rw [hp] at h
      obtain ⟨⟨m, hd⟩, hc, hw⟩ := ih h
      obtain ⟨hd₂, hc₂, hw₂⟩ := tryPush_ok_inv hp
      refine ⟨⟨m + 1, ?_⟩, le_trans hc₂ hc, fun _ => hw hw₂⟩
      simp [hd, hd₂]
    | allocErr b₂ =>
      rw [hp] at h
      cases h
      have := tryPush_allocErr_inv hp
      subst this
      exact ⟨⟨0, by simp⟩, le_refl _, fun hw => hw⟩
    | panicked pk b₂ =>
      rw [hp] at h
      cases h

theorem extendPushLoop_panicked_inv {canAlloc : Nat → Bool} {oe : ItEnd} :
    ∀ {rest : List T} {b b' : Buf T} {pk : PanicKind},
      extendPushLoop canAlloc oe rest b = .panicked pk b' →
      pk = .interruption ∧ oe = .panicEnd ∧ b'.data = b.data ++ rest ∧
        b.cap ≤ b'.cap ∧ (b.wf → b'.wf) := by
  intro rest
  induction rest with
  | nil =>
    intro b b' pk h
    cases oe <;> simp [extendPushLoop] at h
    obtain ⟨h1, h2⟩ := h
    exact ⟨h1.symm, rfl, by simp [h2], by simp [h2], by simp [h2]⟩
  | cons t r ih =>
    intro b b' pk h
    rw [extendPushLoop] at h
    cases hp : tryPush canAlloc b t with
    | ok b₂ =>
      rw [hp] at h
      obtain ⟨hpk, he, hd, hc, hw⟩ := ih h
      obtain ⟨hd₂, hc₂, hw₂⟩ := tryPush_ok_inv hp
      exact ⟨hpk, he, by simp [hd, hd₂], le_trans hc₂ hc, fun _ => hw hw₂⟩
    | allocErr b₂ => rw [hp] at h; cases h
    | panicked pk₂ b₂ =>
      rw [hp] at h
      cases h
      exact absurd hp tryPush_not_panicked

theorem extendPushLoop_true_panicEnd :
    ∀ (rest : List T) (b : Buf T),
      ∃ c, b.cap ≤ c ∧
        extendPushLoop (fun _ => true) .panicEnd rest b =
          .panicked .interruption ⟨b.data ++ rest, c⟩ := by
  intro rest
  induction rest with
  | nil =>
    intro b
    exact ⟨b.cap, le_refl _, by simp [extendPushLoop]⟩
  | cons t r ih =>
    intro b
    obtain ⟨c₂, hc₂, hp⟩ := tryPush_true b t
    obtain ⟨c₃, hc₃, h₃⟩ := ih ⟨b.data ++ [t], c₂⟩
    refine ⟨c₃, le_trans hc₂ hc₃, ?_⟩
    rw [extendPushLoop, hp]
    simpa using h₃

theorem extendPushLoop_true_exhaust :
    ∀ (rest : List T) (b : Buf T),
      ∃ c, b.cap ≤ c ∧
        extendPushLoop (fun _ => true) .exhaust rest b = .ok ⟨b.data ++ rest, c⟩ := by
  intro rest
  induction rest with
  | nil =>
    intro b
    exact ⟨b.cap, le_refl _, by simp [extendPushLoop]⟩
  | cons t r ih =>
    intro b
    obtain ⟨c₂, hc₂, hp⟩ := tryPush_true b t
    obtain ⟨c₃, hc₃, h₃⟩ := ih ⟨b.data ++ [t], c₂⟩
    refine ⟨c₃, le_trans hc₂ hc₃, ?_⟩
    rw [extendPushLoop, hp]
    simpa using h₃

theorem tryCollectIn_ok_inv {canAlloc : Nat → Bool} {it : It T} {rem : Buf T}
    (h : tryCollectIn canAlloc it = .ok rem) :
    rem.data = it.yields ∧ it.onEnd = .exhaust ∧ rem.wf := by
  unfold tryCollectIn tryExtend at h
  cases hr : tryReserve canAlloc ⟨[], 0⟩ (it.hintAt 0) with
  | none => rw [hr] at h; cases h
  | some b₁ =>
    rw [hr] at h
    obtain ⟨hd₁, _, _⟩ := tryReserve_some_inv hr
    obtain ⟨he, hd, _, hw⟩ := extendPushLoop_ok_inv h
    refine ⟨by simp [hd, hd₁], he, hw ?_⟩
    unfold Buf.wf
    simp [hd₁]

theorem tryCollectIn_panicked_inv {canAlloc : Nat → Bool} {it : It T} {bb : Buf T}
    {pk : PanicKind} (h : tryCollectIn canAlloc it = .panicked pk bb) :
    pk = .interruption ∧ it.onEnd = .panicEnd := by
  unfold tryCollectIn tryExtend at h
  cases hr : tryReserve canAlloc ⟨[], 0⟩ (it.hintAt 0) with
  | none => rw [hr] at h; cases h
  | some b₁ =>
    rw [hr] at h
    obtain ⟨hpk, he, _, _, _⟩ := extendPushLoop_panicked_inv h
    exact ⟨hpk, he⟩

theorem moveTail_moved_inv {canAlloc : Nat → Bool} {b b' : Buf T} {i n : Nat}
    (h : moveTail canAlloc b i n = .moved b') :
    b'.data = b.data ∧ b.cap ≤ b'.cap ∧ b.data.length + n ≤ b'.cap ∧
      i ≤ b.data.length := by
  unfold moveTail at h
  cases hr : tryReserve canAlloc b n with
  | none => rw [hr] at h; cases h
  | some b₂ =>
    rw [hr] at h
    dsimp only at h
    obtain ⟨hd, hc, hl⟩ := tryReserve_some_inv hr
    by_cases hi : i ≤ b₂.data.length
    · rw [if_pos hi] at h
      cases h
      refine ⟨hd, hc, hl, ?_⟩
      rw [← hd]
      exact hi
    · rw [if_neg hi] at h
      cases h

theorem moveTail_oob_inv {canAlloc : Nat → Bool} {b : Buf T} {i n c : Nat}
    (h : moveTail canAlloc b i n = .oob c) :
    b.data.length < i ∧ b.cap ≤ c ∧ b.data.length + n ≤ c := by
  unfold moveTail at h
  cases hr : tryReserve canAlloc b n with
  | none => rw [hr] at h; cases h
  | some b₂ =>
    rw [hr] at h
    dsimp only at h
    obtain ⟨hd, hc, hl⟩ := tryReserve_some_inv hr
    by_cases hi : i ≤ b₂.data.length
    · rw [if_pos hi] at h
      cases h
    · rw [if_neg hi] at h
      cases h
      constructor
      · rw [← hd]
        omega
      · exact ⟨hc, hl⟩

theorem moveTail_failed_inv {canAlloc : Nat → Bool} {b : Buf T} {i n : Nat}
    (h : moveTail canAlloc b i n = .failed) :
    tryReserve canAlloc b n = none := by
  unfold moveTail at h
  cases hr : tryReserve canAlloc b n with
  | none => rfl
  | some b₂ =>
    rw [hr] at h
    dsimp only at h
    by_cases hi : i ≤ b₂.data.length
    · rw [if_pos hi] at h
      cases h
    · rw [if_neg hi] at h
      cases h

theorem moveTail_true_moved {b : Buf T} {i : Nat} (n : Nat)
    (hi : i ≤ b.data.length) :
    ∃ b', moveTail (fun _ => true) b i n = .moved b' ∧ b'.data = b.data ∧
      b.cap ≤ b'.cap ∧ b.data.length + n ≤ b'.cap := by
  obtain ⟨b₂, hb₂⟩ := tryReserve_true_some b n
  obtain ⟨hd, hc, hl⟩ := tryReserve_some_inv hb₂
  refine ⟨b₂, ?_, hd, hc, hl⟩
  unfold moveTail
  rw [hb₂]
  simp [hd, hi]

end LoopLemmas

end FallibleVec

namespace FallibleVec

section FillLemmas

variable {T : Type}

theorem producesTo_replicate (item : T) : ∀ (n j : Nat),
    producesTo (fun _ => some item) j (List.replicate n item) := by
  intro n
  induction n with
  | zero => intro j; simp [producesTo]
  | succ m ih => intro j; exact ⟨rfl, ih (j + 1)⟩

theorem fillNLoop_ok_of_produces {p : Nat → Option T} :
    ∀ {vs : List T} {n j : Nat} {acc : List T} {cap : Nat}, producesTo p j vs →
      vs.length = n → fillNLoop p n j acc cap = .ok ⟨acc ++ vs, cap⟩ := by
  intro vs
  induction vs with
  | nil =>
    intro n j acc cap _ hn
    simp at hn
    subst hn
    simp [fillNLoop]
  | cons v vs₂ ih =>
    intro n j acc cap hp hn
    obtain ⟨hv, hp₂⟩ := hp
    cases n with
    | zero => simp at hn
    | succ m =>
      rw [fillNLoop, hv]
      have hm : vs₂.length = m := by
        simp at hn
        omega
      have hrec := @ih m (j + 1) (acc ++ [v]) cap hp₂ hm
      dsimp only
      rw [hrec]
      simp

theorem fillNLoop_panicAt {p : Nat → Option T} :
    ∀ {vs : List T} {n j : Nat} {acc : List T} {cap : Nat}, producesTo p j vs →
      vs.length < n → p (j + vs.length) = none →
      fillNLoop p n j acc cap = .panicked .interruption ⟨acc ++ vs, cap⟩ := by
  intro vs
  induction vs with
  | nil =>
    intro n j acc cap _ hn hnone
    cases n with
    | zero => simp at hn
    | succ m =>
      rw [fillNLoop]
      simp at hnone
      rw [hnone]
      simp
  | cons v vs₂ ih =>
    intro n j acc cap hp hn hnone
    obtain ⟨hv, hp₂⟩ := hp
    cases n with
    | zero => simp at hn
    | succ m =>
      rw [fillNLoop, hv]
      have harith : j + 1 + vs₂.length = j + (v :: vs₂).length := by
        simp [List.length_cons]
        omega
      have hnone₂ : p (j + 1 + vs₂.length) = none := by
        rw [harith]
        exact hnone
      have hm : vs₂.length < m := by
        simp at hn
        omega
      have h₂ := @ih m (j + 1) (acc ++ [v]) cap hp₂ hm hnone₂
      dsimp only
      rw [h₂]
      simp

theorem fillNLoop_outcome {p : Nat → Option T} :
    ∀ (n j : Nat) (acc : List T) (cap : Nat),
      ∃ vs : List T, vs.length ≤ n ∧ (∀ x ∈ vs, ∃ i, p i = some x) ∧
        (fillNLoop p n j acc cap = .ok ⟨acc ++ vs, cap⟩ ∨
          fillNLoop p n j acc cap = .panicked .interruption ⟨acc ++ vs, cap⟩) := by
  intro n
  induction n with
  | zero =>
    intro j acc cap
    exact ⟨[], by simp, by simp, Or.inl (by simp [fillNLoop])⟩
  | succ m ih =>
    intro j acc cap
    cases hv : p j with
    | none =>
      refine ⟨[], by simp, by simp, Or.inr ?_⟩
      rw [fillNLoop, hv]
      simp
    | some v =>
      obtain ⟨vs₂, hlen, hmem, hout⟩ := ih (j + 1) (acc ++ [v]) cap
      refine ⟨v :: vs₂, by simpa using hlen, ?_, ?_⟩
      · intro x hx
        rcases List.mem_cons.mp hx with hx | hx
        · exact ⟨j, by rw [hv, hx]⟩
        · exact hmem x hx
      · rw [fillNLoop, hv]
        dsimp only
        rcases hout with hout | hout
        · exact Or.inl (by rw [hout]; simp)
        · exact Or.inr (by rw [hout]; simp)

theorem clonesTo_nil {cf : Nat → T → Option T} {j : Nat} {vs : List T}
    (h : clonesTo cf j [] vs) : vs = [] := h

theorem efsLoop_ok_of_clones {cf : Nat → T → Option T} :
    ∀ {slice vs : List T} {j : Nat} {acc : List T} {cap : Nat}, clonesTo cf j slice vs →
      efsLoop cf slice j acc cap = .ok ⟨acc ++ vs, cap⟩ := by
  intro slice
  induction slice with
  | nil =>
    intro vs j acc cap h
    rw [clonesTo_nil h]
    simp [efsLoop]
  | cons t rest ih =>
    intro vs j acc cap h
    obtain ⟨v, vs₂, hv, hvs, h₂⟩ := h
    subst hvs
    rw [efsLoop, hv]
    have hrec := @ih vs₂ (j + 1) (acc ++ [v]) cap h₂
    dsimp only
    rw [hrec]
    simp

theorem efsLoop_panicAt {cf : Nat → T → Option T} {x : T} {post : List T} :
    ∀ {pre vs : List T} {j : Nat} {acc : List T} {cap : Nat}, clonesTo cf j pre vs →
      cf (j + pre.length) x = none →
      efsLoop cf (pre ++ x :: post) j acc cap = .panicked .interruption ⟨acc ++ vs, cap⟩ := by
  intro pre
  induction pre with
  | nil =>
    intro vs j acc cap h hnone
    rw [clonesTo_nil h]
    simp at hnone
    rw [List.nil_append, efsLoop, hnone]
    simp
  | cons t rest ih =>
    intro vs j acc cap h hnone
    obtain ⟨v, vs₂, hv, hvs, h₂⟩ := h
    subst hvs
    rw [List.cons_append, efsLoop, hv]
    have harith : j + 1 + rest.length = j + (t :: rest).length := by
      simp [List.length_cons]
      omega
    have hnone₂ : cf (j + 1 + rest.length) x = none := by
      rw [harith]
      exact hnone
    have hrec := @ih vs₂ (j + 1) (acc ++ [v]) cap h₂ hnone₂
    dsimp only
    rw [hrec]
    simp

theorem efsLoop_outcome {cf : Nat → T → Option T} :
    ∀ (slice : List T) (j : Nat) (acc : List T) (cap : Nat),
      ∃ vs : List T, vs.length ≤ slice.length ∧
        (∀ y ∈ vs, ∃ i t, t ∈ slice ∧ cf i t = some y) ∧
        (efsLoop cf slice j acc cap = .ok ⟨acc ++ vs, cap⟩ ∨
          efsLoop cf slice j acc cap = .panicked .interruption ⟨acc ++ vs, cap⟩) := by
  intro slice
  induction slice with
  | nil =>
    intro j acc cap
    exact ⟨[], by simp, by simp, Or.inl (by simp [efsLoop])⟩
  | cons t rest ih =>
    intro j acc cap
    cases hv : cf j t with
    | none =>
      refine ⟨[], by simp, by simp, Or.inr ?_⟩
      rw [efsLoop, hv]
      simp
    | some v =>
      obtain ⟨vs₂, hlen, hmem, hout⟩ := ih (j + 1) (acc ++ [v]) cap
      refine ⟨v :: vs₂, by simpa using Nat.succ_le_succ hlen, ?_, ?_⟩
      · intro y hy
        rcases List.mem_cons.mp hy with hy | hy
        · exact ⟨j, t, List.mem_cons_self t rest, by rw [hv, hy]⟩
        · obtain ⟨i, t₂, ht₂, hc⟩ := hmem y hy
          exact ⟨i, t₂, List.mem_cons_of_mem t ht₂, hc⟩
      · rw [efsLoop, hv]
        dsimp only
        rcases hout with hout | hout
        · exact Or.inl (by rw [hout]; simp)
        · exact Or.inr (by rw [hout]; simp)

end FillLemmas

end FallibleVec

namespace FallibleVec

section SpliceLoopLemmas

variable {T : Type}

theorem take_succ_set : ∀ (l : List T) (i : Nat) (t : T), i < l.length →
    (l.set i t).take (i + 1) = l.take i ++ [t] := by
  intro l
  induction l with
  | nil => intro i t h; simp at h
  | cons x xs ih =>
    intro i t h
    cases i with
    | zero => simp
    | succ m =>
      simp only [List.set_cons_succ, List.take_succ_cons, List.cons_append]
      congr 1
      exact ih m t (by simpa using h)

theorem spliceOverwrite_through {oe : ItEnd} :
    ∀ (n : Nat) (data : List T) (i : Nat) (rest : List T), n ≤ rest.length →
      i + n ≤ data.length →
      spliceOverwrite oe n data i rest =
        .through (data.take i ++ rest.take n ++ data.drop (i + n)) (rest.drop n) := by
  intro n
  induction n with
  | zero =>
    intro data i rest _ _
    simp [spliceOverwrite, List.take_append_drop]
  | succ m ih =>
    intro data i rest hr hd
    cases rest with
    | nil => simp at hr
    | cons t r =>
      rw [spliceOverwrite]
      have hi : i < data.length := by omega
      have := ih (data.set i t) (i + 1) r (by simpa using hr)
        (by simp; omega)
      rw [this]
      rw [take_succ_set data i t hi, List.drop_set_of_lt t data (by omega)]
      rw [(by omega : i + 1 + m = i + (m + 1))]
      simp [List.append_assoc]

theorem spliceOverwrite_drained :
    ∀ (rest : List T) (n : Nat) (data : List T) (i : Nat), rest.length < n →
      i + rest.length ≤ data.length →
      spliceOverwrite .exhaust n data i rest =
        .drained (data.take i ++ rest ++ data.drop (i + rest.length))
          (i + rest.length) := by
  intro rest
  induction rest with
  | nil =>
    intro n data i hn _
    cases n with
    | zero => simp at hn
    | succ m => simp [spliceOverwrite, List.take_append_drop]
  | cons t r ih =>
    intro n data i hn hd
    cases n with
    | zero => simp at hn
    | succ m =>
      rw [spliceOverwrite]
      have hi : i < data.length := by simp at hd; omega
      have := ih m (data.set i t) (i + 1) (by simpa using hn)
        (by simp at hd ⊢; omega)
      rw [this]
      rw [take_succ_set data i t hi, List.drop_set_of_lt t data (by omega)]
      rw [(by omega : i + 1 + r.length = i + (r.length + 1))]
      simp [List.append_assoc]

theorem spliceOverwrite_interrupted :
    ∀ (rest : List T) (n : Nat) (data : List T) (i : Nat), rest.length < n →
      i + rest.length ≤ data.length →
      spliceOverwrite .panicEnd n data i rest =
        .interrupted (data.take i ++ rest ++ data.drop (i + rest.length)) := by
  intro rest
  induction rest with
  | nil =>
    intro n data i hn _
    cases n with
    | zero => simp at hn
    | succ m => simp [spliceOverwrite, List.take_append_drop]
  | cons t r ih =>
    intro n data i hn hd
    cases n with
    | zero => simp at hn
    | succ m =>
      rw [spliceOverwrite]
      have hi : i < data.length := by simp at hd; omega
      have := ih m (data.set i t) (i + 1) (by simpa using hn)
        (by simp at hd ⊢; omega)
      rw [this]
      rw [take_succ_set data i t hi, List.drop_set_of_lt t data (by omega)]
      rw [(by omega : i + 1 + r.length = i + (r.length + 1))]
      simp [List.append_assoc]

theorem spliceFill_filled {oe : ItEnd} :
    ∀ (n : Nat) (acc rest : List T), n ≤ rest.length →
      spliceFill oe n acc rest = .filled (acc ++ rest.take n) (rest.drop n) := by
  intro n
  induction n with
  | zero => intro acc rest _; simp [spliceFill]
  | succ m ih =>
    intro acc rest h
    cases rest with
    | nil => simp at h
    | cons t r =>
      rw [spliceFill]
      have := ih (acc ++ [t]) r (by simpa using h)
      rw [this]
      simp

theorem spliceFill_ranOut :
    ∀ (rest : List T) (n : Nat) (acc : List T), rest.length < n →
      spliceFill .exhaust n acc rest = .ranOut (acc ++ rest) := by
  intro rest
  induction rest with
  | nil =>
    intro n acc hn
    cases n with
    | zero => simp at hn
    | succ m => simp [spliceFill]
  | cons t r ih =>
    intro n acc hn
    cases n with
    | zero => simp at hn
    | succ m =>
      rw [spliceFill]
      have := ih m (acc ++ [t]) (by simpa using hn)
      rw [this]
      simp

theorem spliceFill_interrupted :
    ∀ (rest : List T) (n : Nat) (acc : List T), rest.length < n →
      spliceFill .panicEnd n acc rest = .interrupted (acc ++ rest) := by
  intro rest
  induction rest with
  | nil =>
    intro n acc hn
    cases n with
    | zero => simp at hn
    | succ m => simp [spliceFill]
  | cons t r ih =>
    intro n acc hn
    cases n with
    | zero => simp at hn
    | succ m =>
      rw [spliceFill]
      have := ih m (acc ++ [t]) (by simpa using hn)
      rw [this]
      simp

end SpliceLoopLemmas

end FallibleVec

namespace FallibleVec

section PhaseLemmas

variable {T : Type}

theorem drop_append_ge (l₁ l₂ : List T) (n : Nat) (h : l₁.length ≤ n) :
    (l₁ ++ l₂).drop n = l₂.drop (n - l₁.length) := by
  conv_lhs => rw [(by omega : n = l₁.length + (n - l₁.length))]
  rw [← List.drop_drop, List.drop_left]

theorem splicePhase3_ok_inv {canAlloc : Nat → Bool} {it : It T} {d : List T}
    {cap i k : Nat} {rest : List T} {res : Buf T}
    (h : splicePhase3 canAlloc it d cap i rest k = .ok res) :
    it.onEnd = .exhaust ∧ res.data = d.take i ++ rest ++ d.drop i ∧
      cap ≤ res.cap ∧ (d.length ≤ cap → res.wf) := by
  unfold splicePhase3 at h
  cases hc : tryCollectIn canAlloc ⟨rest, it.onEnd, fun j => it.hintAt (k + j)⟩ with
  | allocErr bb => rw [hc] at h; cases h
  | panicked pk bb => rw [hc] at h; cases h
  | ok rem =>
    rw [hc] at h
    dsimp only at h
    obtain ⟨hrd, he, hrw⟩ := tryCollectIn_ok_inv hc
    simp only at hrd he
    by_cases hemp : rem.data.isEmpty
    · rw [if_pos hemp] at h
      cases h
      have hnil : rest = [] := by
        rw [← hrd]
        exact List.isEmpty_iff.mp hemp
      subst hnil
      exact ⟨he, by simp [List.take_append_drop], le_refl _, fun hw => hw⟩
    · rw [if_neg hemp] at h
      cases hmv : moveTail canAlloc ⟨d, cap⟩ i rem.data.length with
      | failed => rw [hmv] at h; cases h
      | oob c => rw [hmv] at h; cases h
      | moved b' =>
        rw [hmv] at h
        dsimp only at h
        cases h
        obtain ⟨hbd, hbc, hbl, hbi⟩ := moveTail_moved_inv hmv
        have hbd2 : b'.data = d := hbd
        have hbl2 : d.length + rem.data.length ≤ b'.cap := hbl
        have hbi2 : i ≤ d.length := hbi
        refine ⟨he, ?_, hbc, ?_⟩
        · simp only
          rw [hbd2, hrd]
        · intro _
          unfold Buf.wf
          simp only [hbd2]
          simp [List.length_take, List.length_drop]
          omega

theorem splicePhase3_allocErr_inv {canAlloc : Nat → Bool} {it : It T} {d : List T}
    {cap i k : Nat} {rest : List T} {bb : Buf T}
    (h : splicePhase3 canAlloc it d cap i rest k = .allocErr bb) : bb = ⟨d, cap⟩ := by
  unfold splicePhase3 at h
  cases hc : tryCollectIn canAlloc ⟨rest, it.onEnd, fun j => it.hintAt (k + j)⟩ with
  | allocErr bb₂ => rw [hc] at h; cases h; rfl
  | panicked pk bb₂ => rw [hc] at h; cases h
  | ok rem =>
    rw [hc] at h
    dsimp only at h
    by_cases hemp : rem.data.isEmpty
    · rw [if_pos hemp] at h
      cases h
    · rw [if_neg hemp] at h
      cases hmv : moveTail canAlloc ⟨d, cap⟩ i rem.data.length with
      | failed => rw [hmv] at h; cases h; rfl
      | oob c => rw [hmv] at h; cases h
      | moved b' =>
        rw [hmv] at h
        dsimp only at h
        cases h

theorem splicePhase3_panicked_inv {canAlloc : Nat → Bool} {it : It T} {d : List T}
    {cap i k : Nat} {rest : List T} {bb : Buf T} {pk : PanicKind}
    (h : splicePhase3 canAlloc it d cap i rest k = .panicked pk bb) :
    (pk = .interruption ∧ it.onEnd = .panicEnd ∧ bb = ⟨d, cap⟩) ∨
    (pk = .contract ∧ bb.data = d ∧ d.length < i ∧ cap ≤ bb.cap ∧ d.length ≤ bb.cap) := by
  unfold splicePhase3 at h
  cases hc : tryCollectIn canAlloc ⟨rest, it.onEnd, fun j => it.hintAt (k + j)⟩ with
  | allocErr bb₂ => rw [hc] at h; cases h
  | panicked pk₂ bb₂ =>
    rw [hc] at h
    cases h
    obtain ⟨hpk, he⟩ := tryCollectIn_panicked_inv hc
    have he2 : it.onEnd = .panicEnd := he
    exact Or.inl ⟨hpk, he2, rfl⟩
  | ok rem =>
    rw [hc] at h
    dsimp only at h
    by_cases hemp : rem.data.isEmpty
    · rw [if_pos hemp] at h
      cases h
    · rw [if_neg hemp] at h
      cases hmv : moveTail canAlloc ⟨d, cap⟩ i rem.data.length with
      | failed => rw [hmv] at h; cases h
      | oob c =>
        rw [hmv] at h
        dsimp only at h
        cases h
        obtain ⟨hlt, hc₂, hl₂⟩ := moveTail_oob_inv hmv
        have hlt2 : d.length < i := hlt
        have hc₃ : cap ≤ c := hc₂
        have hl₃ : d.length + rem.data.length ≤ c := hl₂
        exact Or.inr ⟨rfl, rfl, hlt2, hc₃, show d.length ≤ c by omega⟩
      | moved b' =>
        rw [hmv] at h
        dsimp only at h
        cases h

theorem splicePhase2_ok_inv {canAlloc : Nat → Bool} {it : It T} {d : List T}
    {cap e k lb : Nat} {rest : List T} {res : Buf T}
    (h : splicePhase2 canAlloc it d cap e rest k lb = .ok res) :
    it.onEnd = .exhaust ∧ res.data = d.take e ++ rest ++ d.drop e ∧
      cap ≤ res.cap ∧ (d.length ≤ cap → res.wf) := by
  unfold splicePhase2 at h
  by_cases hlb : lb = 0
  · rw [if_pos hlb] at h
    exact splicePhase3_ok_inv h
  · rw [if_neg hlb] at h
    cases hmv : moveTail canAlloc ⟨d, cap⟩ e lb with
    | failed => rw [hmv] at h; cases h
    | oob c => rw [hmv] at h; cases h
    | moved b' =>
      rw [hmv] at h
      dsimp only at h
      obtain ⟨hbd, hbc, hbl, hbe⟩ := moveTail_moved_inv hmv
      have hbd2 : b'.data = d := hbd
      have hbc2 : cap ≤ b'.cap := hbc
      have hbl2 : d.length + lb ≤ b'.cap := hbl
      have hbe2 : e ≤ d.length := hbe
      by_cases hlen : lb ≤ rest.length
      · rw [spliceFill_filled lb (b'.data.take e) rest hlen] at h
        dsimp only at h
        obtain ⟨he, hd₂, hc₂, hw₂⟩ := splicePhase3_ok_inv h
        have hacc : (b'.data.take e ++ rest.take lb).length = e + lb := by
          simp [List.length_take, hbd2]
          omega
        refine ⟨he, ?_, le_trans hbc2 hc₂, ?_⟩
        · rw [hd₂, List.take_left' hacc, List.drop_left' hacc, hbd2]
          simp [List.append_assoc, List.take_append_drop]
        · intro hwf
          apply hw₂
          simp [List.length_take, List.length_drop, hbd2]
          omega
      · push_neg at hlen
        cases hoe : it.onEnd with
        | exhaust =>
          rw [hoe, spliceFill_ranOut rest lb (b'.data.take e) hlen] at h
          cases h
        | panicEnd =>
          rw [hoe, spliceFill_interrupted rest lb (b'.data.take e) hlen] at h
          cases h

theorem splicePhase2_allocErr_inv {canAlloc : Nat → Bool} {it : It T} {d : List T}
    {cap e k lb : Nat} {rest : List T} {bb : Buf T}
    (h : splicePhase2 canAlloc it d cap e rest k lb = .allocErr bb) :
    bb = ⟨d, cap⟩ ∨
      (bb.data = d.take e ++ rest.take lb ++ d.drop e ∧ cap ≤ bb.cap ∧
        (d.length ≤ cap → bb.wf)) := by
  unfold splicePhase2 at h
  by_cases hlb : lb = 0
  · rw [if_pos hlb] at h
    exact Or.inl (splicePhase3_allocErr_inv h)
  · rw [if_neg hlb] at h
    cases hmv : moveTail canAlloc ⟨d, cap⟩ e lb with
    | failed => rw [hmv] at h; cases h; exact Or.inl rfl
    | oob c => rw [hmv] at h; cases h
    | moved b' =>
      rw [hmv] at h
      dsimp only at h
      obtain ⟨hbd, hbc, hbl, hbe⟩ := moveTail_moved_inv hmv
      have hbd2 : b'.data = d := hbd
      have hbc2 : cap ≤ b'.cap := hbc
      have hbl2 : d.length + lb ≤ b'.cap := hbl
      have hbe2 : e ≤ d.length := hbe
      by_cases hlen : lb ≤ rest.length
      · rw [spliceFill_filled lb (b'.data.take e) rest hlen] at h
        dsimp only at h
        have hsub := splicePhase3_allocErr_inv h
        subst hsub
        refine Or.inr ⟨?_, hbc2, ?_⟩
        · simp only [hbd2]
        · intro hwf
          unfold Buf.wf
          simp only [hbd2]
          simp [List.length_take, List.length_drop]
          omega
      · push_neg at hlen
        cases hoe : it.onEnd with
        | exhaust =>
          rw [hoe, spliceFill_ranOut rest lb (b'.data.take e) hlen] at h
          cases h
        | panicEnd =>
          rw [hoe, spliceFill_interrupted rest lb (b'.data.take e) hlen] at h
          cases h

theorem splicePhase2_panicked_inv {canAlloc : Nat → Bool} {it : It T} {d : List T}
    {cap e k lb : Nat} {rest : List T} {bb : Buf T} {pk : PanicKind}
    (h : splicePhase2 canAlloc it d cap e rest k lb = .panicked pk bb) :
    (pk = .contract ∧ bb.data = d ∧ d.length < e ∧ cap ≤ bb.cap ∧ d.length ≤ bb.cap) ∨
    (pk = .interruption ∧ it.onEnd = .panicEnd ∧ cap ≤ bb.cap ∧
      (d.length ≤ cap → bb.wf) ∧ ∀ x ∈ bb.data, x ∈ d ∨ x ∈ rest) ∨
    (pk = .unwrapNone ∧ it.onEnd = .exhaust ∧ rest.length < lb ∧
      bb.data = d.take e ++ rest ∧ cap ≤ bb.cap ∧ (d.length ≤ cap → bb.wf)) := by
  unfold splicePhase2 at h
  by_cases hlb : lb = 0
  · rw [if_pos hlb] at h
    rcases splicePhase3_panicked_inv h with ⟨hpk, he, hbb⟩ | ⟨hpk, hbb, hlt, hc₂, hl₂⟩
    · subst hbb
      refine Or.inr (Or.inl ⟨hpk, he, le_refl _, fun hw => hw, ?_⟩)
      intro x hx
      exact Or.inl hx
    · exact Or.inl ⟨hpk, hbb, hlt, hc₂, hl₂⟩
  · rw [if_neg hlb] at h
    cases hmv : moveTail canAlloc ⟨d, cap⟩ e lb with
    | failed => rw [hmv] at h; cases h
    | oob c =>
      rw [hmv] at h
      cases h
      obtain ⟨hlt, hc₂, hl₂⟩ := moveTail_oob_inv hmv
      have hlt2 : d.length < e := hlt
      have hc₃ : cap ≤ c := hc₂
      have hl₃ : d.length + lb ≤ c := hl₂
      exact Or.inl ⟨rfl, rfl, hlt2, hc₃, show d.length ≤ c by omega⟩
    | moved b' =>
      rw [hmv] at h
      dsimp only at h
      obtain ⟨hbd, hbc, hbl, hbe⟩ := moveTail_moved_inv hmv
      have hbd2 : b'.data = d := hbd
      have hbc2 : cap ≤ b'.cap := hbc
      have hbl2 : d.length + lb ≤ b'.cap := hbl
      have hbe2 : e ≤ d.length := hbe
      by_cases hlen : lb ≤ rest.length
      · rw [spliceFill_filled lb (b'.data.take e) rest hlen] at h
        dsimp only at h
        rcases splicePhase3_panicked_inv h with ⟨hpk, he, hbb⟩ | ⟨hpk, hbb, hlt, _, _⟩
        · subst hbb
          refine Or.inr (Or.inl ⟨hpk, he, hbc2, ?_, ?_⟩)
          · intro hwf
            unfold Buf.wf
            simp only [hbd2]
            simp [List.length_take, List.length_drop]
            omega
          · intro x hx
            simp only at hx
            rcases List.mem_append.mp hx with hx | hx
            · rcases List.mem_append.mp hx with hx | hx
              · exact Or.inl (List.mem_of_mem_take (by rw [← hbd2]; exact hx))
              · exact Or.inr (List.mem_of_mem_take hx)
            · exact Or.inl (by rw [← hbd2]; exact List.mem_of_mem_drop hx)
        · exfalso
          rw [hbd2] at hlt
          simp [List.length_take, List.length_drop] at hlt
          omega
      · push_neg at hlen
        cases hoe : it.onEnd with
        | exhaust =>
          rw [hoe, spliceFill_ranOut rest lb (b'.data.take e) hlen] at h
          cases h
          refine Or.inr (Or.inr ⟨rfl, rfl, hlen, by rw [hbd2], hbc2, ?_⟩)
          intro hwf
          unfold Buf.wf
          simp only [hbd2]
          simp [List.length_take]
          omega
        | panicEnd =>
          rw [hoe, spliceFill_interrupted rest lb (b'.data.take e) hlen] at h
          cases h
          refine Or.inr (Or.inl ⟨rfl, rfl, hbc2, ?_, ?_⟩)
          · intro hwf
            unfold Buf.wf
            simp only [hbd2]
            simp [List.length_take]
            omega
          · intro x hx
            simp only at hx
            rcases List.mem_append.mp hx with hx | hx
            · exact Or.inl (List.mem_of_mem_take (by rw [← hbd2]; exact hx))
            · exact Or.inr hx

theorem splicePhase2_unwrap_fwd {it : It T} {d rest : List T} {cap e k lb : Nat}
    (hoe : it.onEnd = .exhaust) (hlen : rest.length < lb) (hed : e ≤ d.length) :
    ∃ c, splicePhase2 (fun _ => true) it d cap e rest k lb =
      .panicked .unwrapNone ⟨d.take e ++ rest, c⟩ := by
  obtain ⟨b', hmv, hbd, hbc, hbl⟩ := @moveTail_true_moved T ⟨d, cap⟩ e lb hed
  have hbd2 : b'.data = d := hbd
  refine ⟨b'.cap, ?_⟩
  unfold splicePhase2
  rw [if_neg (by omega), hmv]
  dsimp only
  rw [hoe, spliceFill_ranOut rest lb (b'.data.take e) hlen]
  rw [hbd2]

end PhaseLemmas

end FallibleVec

namespace FallibleVec

section SpliceTopLemmas

variable {T : Type}

theorem trySpliceIn_ok_inv {canAlloc : Nat → Bool} {b : Buf T} {s e : Nat}
    {it : It T} {res : Buf T} (hse : s ≤ e) (hel : e ≤ b.data.length)
    (h : trySpliceIn canAlloc b s e it = .ok res) :
    res.data = b.data.take s ++ it.yields ++ b.data.drop e ∧
      b.cap ≤ res.cap ∧ (b.wf → res.wf) ∧ it.onEnd = .exhaust := by
  unfold trySpliceIn at h
  rw [if_pos ⟨hse, hel⟩] at h
  by_cases hy : e - s ≤ it.yields.length
  · rw [spliceOverwrite_through (e - s) b.data s it.yields hy (by omega)] at h
    dsimp only at h
    rw [(by omega : s + (e - s) = e)] at h
    rw [(by simp [List.length_drop]; omega :
      it.yields.length - (it.yields.drop (e - s)).length = e - s)] at h
    obtain ⟨he, hd, hc, hw⟩ := splicePhase2_ok_inv h
    have hA : (b.data.take s ++ it.yields.take (e - s)).length = e := by
      simp [List.length_take]
      omega
    have hDlen : (b.data.take s ++ it.yields.take (e - s) ++ b.data.drop e).length =
        b.data.length := by
      simp [List.length_take, List.length_drop]
      omega
    refine ⟨?_, hc, ?_, he⟩
    · rw [hd, List.take_left' hA, List.drop_left' hA]
      conv_rhs => rw [← List.take_append_drop (e - s) it.yields]
      simp [List.append_assoc]
    · intro hwf
      apply hw
      rw [hDlen]
      exact hwf
  · push_neg at hy
    cases hoe : it.onEnd with
    | exhaust =>
      rw [hoe, spliceOverwrite_drained it.yields (e - s) b.data s hy (by omega)] at h
      dsimp only at h
      cases h
      have hA : (b.data.take s ++ it.yields).length = s + it.yields.length := by
        simp [List.length_take]
        omega
      refine ⟨?_, le_refl _, ?_, rfl⟩
      · simp only
        rw [List.take_left' hA, drop_append_ge _ _ e (by omega), hA]
        rw [List.drop_drop]
        rw [(by omega : s + it.yields.length + (e - (s + it.yields.length)) = e)]
      · intro hwf
        unfold Buf.wf at hwf ⊢
        simp only
        rw [List.take_left' hA]
        simp [List.length_take, List.length_drop]
        omega
    | panicEnd =>
      rw [hoe, spliceOverwrite_interrupted it.yields (e - s) b.data s hy (by omega)] at h
      cases h

theorem trySpliceIn_allocErr_inv {canAlloc : Nat → Bool} {b : Buf T} {s e : Nat}
    {it : It T} {bb : Buf T} (hse : s ≤ e) (hel : e ≤ b.data.length)
    (h : trySpliceIn canAlloc b s e it = .allocErr bb) :
    (bb.data = b.data.take s ++ it.yields.take (e - s) ++ b.data.drop e ∨
      bb.data = b.data.take s ++ it.yields.take ((e - s) + it.hintAt (e - s)) ++
        b.data.drop e) ∧
      b.cap ≤ bb.cap ∧ (b.wf → bb.wf) := by
  unfold trySpliceIn at h
  rw [if_pos ⟨hse, hel⟩] at h
  by_cases hy : e - s ≤ it.yields.length
  · rw [spliceOverwrite_through (e - s) b.data s it.yields hy (by omega)] at h
    dsimp only at h
    rw [(by omega : s + (e - s) = e)] at h
    rw [(by simp [List.length_drop]; omega :
      it.yields.length - (it.yields.drop (e - s)).length = e - s)] at h
    have hA : (b.data.take s ++ it.yields.take (e - s)).length = e := by
      simp [List.length_take]
      omega
    have hDlen : (b.data.take s ++ it.yields.take (e - s) ++ b.data.drop e).length =
        b.data.length := by
      simp [List.length_take, List.length_drop]
      omega
    rcases splicePhase2_allocErr_inv h with hbb | ⟨hbd, hbc, hbw⟩
    · subst hbb
      refine ⟨Or.inl rfl, le_refl _, ?_⟩
      intro hwf
      unfold Buf.wf at hwf ⊢
      simp only
      omega
    · refine ⟨Or.inr ?_, hbc, ?_⟩
      · rw [hbd, List.take_left' hA, List.drop_left' hA]
        conv_rhs => rw [List.take_add]
        simp [List.append_assoc]
      · intro hwf
        apply hbw
        rw [hDlen]
        exact hwf
  · push_neg at hy
    cases hoe : it.onEnd with
    | exhaust =>
      rw [hoe, spliceOverwrite_drained it.yields (e - s) b.data s hy (by omega)] at h
      dsimp only at h
      cases h
    | panicEnd =>
      rw [hoe, spliceOverwrite_interrupted it.yields (e - s) b.data s hy (by omega)] at h
      cases h

theorem trySpliceIn_panicked_wf_mem {canAlloc : Nat → Bool} {b : Buf T} {s e : Nat}
    {it : It T} {bb : Buf T} {pk : PanicKind} (hse : s ≤ e) (hel : e ≤ b.data.length)
    (h : trySpliceIn canAlloc b s e it = .panicked pk bb) (hwf : b.wf) :
    bb.wf ∧ ∀ x ∈ bb.data, x ∈ b.data ∨ x ∈ it.yields := by
  unfold trySpliceIn at h
  rw [if_pos ⟨hse, hel⟩] at h
  by_cases hy : e - s ≤ it.yields.length
  · rw [spliceOverwrite_through (e - s) b.data s it.yields hy (by omega)] at h
    dsimp only at h
    rw [(by omega : s + (e - s) = e)] at h
    rw [(by simp [List.length_drop]; omega :
      it.yields.length - (it.yields.drop (e - s)).length = e - s)] at h
    have hA : (b.data.take s ++ it.yields.take (e - s)).length = e := by
      simp [List.length_take]
      omega
    have hDlen : (b.data.take s ++ it.yields.take (e - s) ++ b.data.drop e).length =
        b.data.length := by
      simp [List.length_take, List.length_drop]
      omega
    have hmemD : ∀ x, x ∈ b.data.take s ++ it.yields.take (e - s) ++ b.data.drop e →
        x ∈ b.data ∨ x ∈ it.yields := by
      intro x hx
      rcases List.mem_append.mp hx with hx | hx
      · rcases List.mem_append.mp hx with hx | hx
        · exact Or.inl (List.mem_of_mem_take hx)
        · exact Or.inr (List.mem_of_mem_take hx)
      · exact Or.inl (List.mem_of_mem_drop hx)
    rcases splicePhase2_panicked_inv h with
      ⟨_, _, hlt, _, _⟩ | ⟨_, _, _, hbw, hmem⟩ | ⟨_, _, _, hbd, _, hbw⟩
    · exfalso
      rw [hDlen] at hlt
      omega
    · refine ⟨hbw (by rw [hDlen]; exact hwf), ?_⟩
      intro x hx
      rcases hmem x hx with hx | hx
      · exact hmemD x hx
      · exact Or.inr (List.mem_of_mem_drop hx)
    · refine ⟨hbw (by rw [hDlen]; exact hwf), ?_⟩
      intro x hx
      rw [hbd, List.take_left' hA] at hx
      rcases List.mem_append.mp hx with hx | hx
      · rcases List.mem_append.mp hx with hx | hx
        · exact Or.inl (List.mem_of_mem_take hx)
        · exact Or.inr (List.mem_of_mem_take hx)
      · exact Or.inr (List.mem_of_mem_drop hx)
  · push_neg at hy
    cases hoe : it.onEnd with
    | exhaust =>
      rw [hoe, spliceOverwrite_drained it.yields (e - s) b.data s hy (by omega)] at h
      dsimp only at h
      cases h
    | panicEnd =>
      rw [hoe, spliceOverwrite_interrupted it.yields (e - s) b.data s hy (by omega)] at h
      cases h
      constructor
      · unfold Buf.wf at hwf ⊢
        simp only
        simp [List.length_take, List.length_drop]
        omega
      · intro x hx
        simp only at hx
        rcases List.mem_append.mp hx with hx | hx
        · rcases List.mem_append.mp hx with hx | hx
          · exact Or.inl (List.mem_of_mem_take hx)
          · exact Or.inr hx
        · exact Or.inl (List.mem_of_mem_drop hx)

theorem trySpliceIn_unwrap_fwd {b : Buf T} {s e : Nat} {it : It T}
    (hse : s ≤ e) (hel : e ≤ b.data.length) (hoe : it.onEnd = .exhaust)
    (hy : e - s ≤ it.yields.length)
    (hgt : it.yields.length - (e - s) < it.hintAt (e - s)) :
    ∃ c, trySpliceIn (fun _ => true) b s e it =
      .panicked .unwrapNone ⟨b.data.take s ++ it.yields, c⟩ := by
  have hlenR : (it.yields.drop (e - s)).length < it.hintAt (e - s) := by
    simp [List.length_drop]
    omega
  have hDe : e ≤ (b.data.take s ++ it.yields.take (e - s) ++ b.data.drop e).length := by
    simp [List.length_take, List.length_drop]
    omega
  obtain ⟨c, hc⟩ := @splicePhase2_unwrap_fwd T it
    (b.data.take s ++ it.yields.take (e - s) ++ b.data.drop e)
    (it.yields.drop (e - s)) b.cap e (e - s) (it.hintAt (e - s)) hoe hlenR hDe
  refine ⟨c, ?_⟩
  unfold trySpliceIn
  rw [if_pos ⟨hse, hel⟩]
  rw [spliceOverwrite_through (e - s) b.data s it.yields hy (by omega)]
  dsimp only
  rw [(by omega : s + (e - s) = e)]
  rw [(by simp [List.length_drop]; omega :
    it.yields.length - (it.yields.drop (e - s)).length = e - s)]
  rw [hc]
  have hA : (b.data.take s ++ it.yields.take (e - s)).length = e := by
    simp [List.length_take]
    omega
  rw [List.take_left' hA]
  have hfin : b.data.take s ++ it.yields.take (e - s) ++ it.yields.drop (e - s) =
      b.data.take s ++ it.yields := by
    conv_rhs => rw [← List.take_append_drop (e - s) it.yields]
    simp [List.append_assoc]
  rw [hfin]

theorem trySpliceIn_unwrap_inv {canAlloc : Nat → Bool} {b : Buf T} {s e : Nat}
    {it : It T} {bb : Buf T}
    (h : trySpliceIn canAlloc b s e it = .panicked .unwrapNone bb) :
    it.onEnd = .exhaust ∧ s ≤ e ∧ e ≤ b.data.length ∧ e - s ≤ it.yields.length ∧
      it.yields.length - (e - s) < it.hintAt (e - s) := by
  unfold trySpliceIn at h
  by_cases hrange : s ≤ e ∧ e ≤ b.data.length
  · rw [if_pos hrange] at h
    by_cases hy : e - s ≤ it.yields.length
    · rw [spliceOverwrite_through (e - s) b.data s it.yields hy (by omega)] at h
      dsimp only at h
      rw [(by simp [List.length_drop]; omega :
        it.yields.length - (it.yields.drop (e - s)).length = e - s)] at h
      rcases splicePhase2_panicked_inv h with
        ⟨hpk, _, _, _, _⟩ | ⟨hpk, _, _, _, _⟩ | ⟨_, hoe, hlen, _, _, _⟩
      · cases hpk
      · cases hpk
      · refine ⟨hoe, hrange.1, hrange.2, hy, ?_⟩
        simp [List.length_drop] at hlen
        omega
    · push_neg at hy
      cases hoe : it.onEnd with
      | exhaust =>
        rw [hoe, spliceOverwrite_drained it.yields (e - s) b.data s hy (by omega)] at h
        dsimp only at h
        cases h
      | panicEnd =>
        rw [hoe, spliceOverwrite_interrupted it.yields (e - s) b.data s hy (by omega)] at h
        cases h
  · rw [if_neg hrange] at h
    cases h

end SpliceTopLemmas

end FallibleVec

namespace FallibleVec

section InvariantLemmas

variable {T : Type}

theorem extendPushLoop_noGrow {canAlloc : Nat → Bool} :
    ∀ (items : List T) (b : Buf T), b.data.length + items.length ≤ b.cap →
      extendPushLoop canAlloc .exhaust items b = .ok ⟨b.data ++ items, b.cap⟩ := by
  intro items
  induction items with
  | nil => intro b _; simp [extendPushLoop]
  | cons t r ih =>
    intro b hb
    rw [extendPushLoop, tryPush_noGrow (by simp at hb; omega)]
    dsimp only
    have := ih ⟨b.data ++ [t], b.cap⟩ (by simp at hb ⊢; omega)
    rw [this]
    simp

theorem applyOp_wf_mem (canAlloc : Nat → Bool) (b : Buf T) (op : Op T) (hwf : b.wf) :
    (applyOp canAlloc b op).buf.wf ∧
      ∀ x ∈ (applyOp canAlloc b op).buf.data, x ∈ b.data ∨ op.supplies x := by
  cases op with
  | push item =>
    dsimp only [applyOp, Op.supplies]
    cases hp : tryPush canAlloc b item with
    | ok b' =>
      obtain ⟨hd, _, hw⟩ := tryPush_ok_inv hp
      dsimp only [OpResult.buf]
      refine ⟨hw, ?_⟩
      intro x hx
      rw [hd] at hx
      rcases List.mem_append.mp hx with hx | hx
      · exact Or.inl hx
      · exact Or.inr (by simpa using hx)
    | allocErr b' =>
      have := tryPush_allocErr_inv hp
      subst this
      exact ⟨hwf, fun x hx => Or.inl hx⟩
    | panicked pk b' => exact absurd hp tryPush_not_panicked
  | insert i item =>
    dsimp only [applyOp, Op.supplies]
    unfold tryInsert
    cases hmv : moveTail canAlloc b i 1 with
    | failed => exact ⟨hwf, fun x hx => Or.inl hx⟩
    | oob c =>
      obtain ⟨_, hc₂, hl₂⟩ := moveTail_oob_inv hmv
      dsimp only [OpResult.buf]
      refine ⟨?_, fun x hx => Or.inl hx⟩
      unfold Buf.wf at hwf ⊢
      simp only
      omega
    | moved b' =>
      obtain ⟨hbd, _, hbl, hbi⟩ := moveTail_moved_inv hmv
      dsimp only [OpResult.buf]
      constructor
      · unfold Buf.wf
        simp only [hbd]
        simp [List.length_take, List.length_drop]
        omega
      · intro x hx
        simp only [hbd] at hx
        rcases List.mem_append.mp hx with hx | hx
        · exact Or.inl (List.mem_of_mem_take hx)
        · rcases List.mem_cons.mp hx with hx | hx
          · exact Or.inr (by simpa using hx)
          · exact Or.inl (List.mem_of_mem_drop hx)
  | extend it =>
    dsimp only [applyOp, Op.supplies]
    unfold tryExtend
    cases hr : tryReserve canAlloc b (it.hintAt 0) with
    | none => exact ⟨hwf, fun x hx => Or.inl hx⟩
    | some b₁ =>
      obtain ⟨hd₁, hc₁, hl₁⟩ := tryReserve_some_inv hr
      have hw₁ : b₁.wf := by
        unfold Buf.wf
        rw [hd₁]
        omega
      dsimp only
      cases hl : extendPushLoop canAlloc it.onEnd it.yields b₁ with
      | ok b' =>
        obtain ⟨_, hd, _, hw⟩ := extendPushLoop_ok_inv hl
        dsimp only [OpResult.buf]
        refine ⟨hw hw₁, ?_⟩
        intro x hx
        rw [hd, hd₁] at hx
        rcases List.mem_append.mp hx with hx | hx
        · exact Or.inl hx
        · exact Or.inr hx
      | allocErr b' =>
        obtain ⟨⟨m, hd⟩, _, hw⟩ := extendPushLoop_allocErr_inv hl
        dsimp only [OpResult.buf]
        refine ⟨hw hw₁, ?_⟩
        intro x hx
        rw [hd, hd₁] at hx
        rcases List.mem_append.mp hx with hx | hx
        · exact Or.inl hx
        · exact Or.inr (List.mem_of_mem_take hx)
      | panicked pk b' =>
        obtain ⟨_, _, hd, _, hw⟩ := extendPushLoop_panicked_inv hl
        dsimp only [OpResult.buf]
        refine ⟨hw hw₁, ?_⟩
        intro x hx
        rw [hd, hd₁] at hx
        rcases List.mem_append.mp hx with hx | hx
        · exact Or.inl hx
        · exact Or.inr hx
  | extendFromSlice cf sl =>
    dsimp only [applyOp, Op.supplies]
    unfold tryExtendFromSlice
    cases hr : tryReserve canAlloc b sl.length with
    | none => exact ⟨hwf, fun x hx => Or.inl hx⟩
    | some b₁ =>
      obtain ⟨hd₁, hc₁, hl₁⟩ := tryReserve_some_inv hr
      dsimp only
      obtain ⟨vs, hvlen, hvmem, houts⟩ := @efsLoop_outcome T cf sl 0 b₁.data b₁.cap
      rcases houts with hout | hout <;> rw [hout] <;> dsimp only [OpResult.buf] <;>
        refine ⟨?_, ?_⟩ <;>
        first
          | (unfold Buf.wf
             simp only
             rw [hd₁] at *
             simp
             omega)
          | (intro x hx
             rw [hd₁] at hx
             rcases List.mem_append.mp hx with hx | hx
             · exact Or.inl hx
             · exact Or.inr (hvmem x hx))
  | resize cf n item =>
    dsimp only [applyOp, Op.supplies]
    unfold tryResize
    by_cases h1 : n < b.data.length
    · rw [if_pos h1]
      dsimp only [OpResult.buf]
      refine ⟨?_, ?_⟩
      · unfold Buf.wf at hwf ⊢
        simp [List.length_take]
        omega
      · intro x hx
        exact Or.inl (List.mem_of_mem_take hx)
    · rw [if_neg h1]
      by_cases h2 : b.data.length < n
      · rw [if_pos h2]
        cases hr : tryReserve canAlloc b (n - b.data.length) with
        | none => exact ⟨hwf, fun x hx => Or.inl hx⟩
        | some b₁ =>
          obtain ⟨hd₁, hc₁, hl₁⟩ := tryReserve_some_inv hr
          dsimp only
          obtain ⟨vs, hvlen, hvmem, houts⟩ :=
            @fillNLoop_outcome T (fun j => cf j item) (n - b.data.length) 0 b₁.data b₁.cap
          rcases houts with hout | hout <;> rw [hout] <;> dsimp only [OpResult.buf] <;>
            refine ⟨?_, ?_⟩ <;>
            first
              | (unfold Buf.wf
                 simp only
                 rw [hd₁] at *
                 simp
                 omega)
              | (intro x hx
                 rw [hd₁] at hx
                 rcases List.mem_append.mp hx with hx | hx
                 · exact Or.inl hx
                 · exact Or.inr (hvmem x hx))
      · rw [if_neg h2]
        exact ⟨hwf, fun x hx => Or.inl hx⟩
  | resizeWith n f =>
    dsimp only [applyOp, Op.supplies]
    unfold tryResizeWith
    by_cases h1 : n < b.data.length
    · rw [if_pos h1]
      dsimp only [OpResult.buf]
      refine ⟨?_, ?_⟩
      · unfold Buf.wf at hwf ⊢
        simp [List.length_take]
        omega
      · intro x hx
        exact Or.inl (List.mem_of_mem_take hx)
    · rw [if_neg h1]
      by_cases h2 : b.data.length < n
      · rw [if_pos h2]
        cases hr : tryReserve canAlloc b (n - b.data.length) with
        | none => exact ⟨hwf, fun x hx => Or.inl hx⟩
        | some b₁ =>
          obtain ⟨hd₁, hc₁, hl₁⟩ := tryReserve_some_inv hr
          dsimp only
          obtain ⟨vs, hvlen, hvmem, houts⟩ :=
            @fillNLoop_outcome T f (n - b.data.length) 0 b₁.data b₁.cap
          rcases houts with hout | hout <;> rw [hout] <;> dsimp only [OpResult.buf] <;>
            refine ⟨?_, ?_⟩ <;>
            first
              | (unfold Buf.wf
                 simp only
                 rw [hd₁] at *
                 simp
                 omega)
              | (intro x hx
                 rw [hd₁] at hx
                 rcases List.mem_append.mp hx with hx | hx
                 · exact Or.inl hx
                 · exact Or.inr (hvmem x hx))
      · rw [if_neg h2]
        exact ⟨hwf, fun x hx => Or.inl hx⟩
  | splice s e it =>
    dsimp only [applyOp, Op.supplies]
    by_cases hrange : s ≤ e ∧ e ≤ b.data.length
    · cases hres : trySpliceIn canAlloc b s e it with
      | ok res =>
        obtain ⟨hd, _, hw, _⟩ := trySpliceIn_ok_inv hrange.1 hrange.2 hres
        dsimp only [OpResult.buf]
        refine ⟨hw hwf, ?_⟩
        intro x hx
        rw [hd] at hx
        rcases List.mem_append.mp hx with hx | hx
        · rcases List.mem_append.mp hx with hx | hx
          · exact Or.inl (List.mem_of_mem_take hx)
          · exact Or.inr hx
        · exact Or.inl (List.mem_of_mem_drop hx)
      | allocErr bb =>
        obtain ⟨hforms, _, hw⟩ := trySpliceIn_allocErr_inv hrange.1 hrange.2 hres
        dsimp only [OpResult.buf]
        refine ⟨hw hwf, ?_⟩
        intro x hx
        rcases hforms with hf | hf <;> rw [hf] at hx <;>
          (rcases List.mem_append.mp hx with hx | hx
           · rcases List.mem_append.mp hx with hx | hx
             · exact Or.inl (List.mem_of_mem_take hx)
             · exact Or.inr (List.mem_of_mem_take hx)
           · exact Or.inl (List.mem_of_mem_drop hx))
      | panicked pk bb =>
        obtain ⟨hw, hmem⟩ := trySpliceIn_panicked_wf_mem hrange.1 hrange.2 hres hwf
        dsimp only [OpResult.buf]
        exact ⟨hw, hmem⟩
    · have hcontract : trySpliceIn canAlloc b s e it = .panicked .contract b := by
        unfold trySpliceIn
        rw [if_neg hrange]
      rw [hcontract]
      exact ⟨hwf, fun x hx => Or.inl hx⟩
  | collect it =>
    dsimp only [applyOp, Op.supplies]
    unfold tryCollectIn tryExtend
    cases hr : tryReserve canAlloc ⟨[], 0⟩ (it.hintAt 0) with
    | none =>
      dsimp only [OpResult.buf]
      exact ⟨by unfold Buf.wf; simp, by simp⟩
    | some b₁ =>
      obtain ⟨hd₁, hc₁, hl₁⟩ := tryReserve_some_inv hr
      have hd₂ : b₁.data = [] := hd₁
      have hw₁ : b₁.wf := by
        unfold Buf.wf
        rw [hd₂]
        simp
      dsimp only
      cases hl : extendPushLoop canAlloc it.onEnd it.yields b₁ with
      | ok b' =>
        obtain ⟨_, hd, _, hw⟩ := extendPushLoop_ok_inv hl
        dsimp only [OpResult.buf]
        refine ⟨hw hw₁, ?_⟩
        intro x hx
        rw [hd, hd₂] at hx
        exact Or.inr (by simpa using hx)
      | allocErr b' =>
        obtain ⟨⟨m, hd⟩, _, hw⟩ := extendPushLoop_allocErr_inv hl
        dsimp only [OpResult.buf]
        refine ⟨hw hw₁, ?_⟩
        intro x hx
        rw [hd, hd₂] at hx
        exact Or.inr (List.mem_of_mem_take (by simpa using hx))
      | panicked pk b' =>
        obtain ⟨_, _, hd, _, hw⟩ := extendPushLoop_panicked_inv hl
        dsimp only [OpResult.buf]
        refine ⟨hw hw₁, ?_⟩
        intro x hx
        rw [hd, hd₂] at hx
        exact Or.inr (by simpa using hx)

theorem applySeq_wf_mem (canAlloc : Nat → Bool) :
    ∀ (ops : List (Op T)) (b : Buf T), b.wf →
      (applySeq canAlloc b ops).wf ∧
        ∀ x ∈ (applySeq canAlloc b ops).data,
          x ∈ b.data ∨ ∃ op ∈ ops, op.supplies x := by
  intro ops
  induction ops with
  | nil =>
    intro b hwf
    exact ⟨hwf, fun x hx => Or.inl hx⟩
  | cons op ops ih =>
    intro b hwf
    obtain ⟨hw₁, hm₁⟩ := applyOp_wf_mem canAlloc b op hwf
    obtain ⟨hw₂, hm₂⟩ := ih (applyOp canAlloc b op).buf hw₁
    rw [applySeq]
    refine ⟨hw₂, ?_⟩
    intro x hx
    rcases hm₂ x hx with hx₂ | ⟨op₂, hop₂, hs₂⟩
    · rcases hm₁ x hx₂ with hx₃ | hs₃
      · exact Or.inl hx₃
      · exact Or.inr ⟨op, List.mem_cons_self op ops, hs₃⟩
    · exact Or.inr ⟨op₂, List.mem_cons_of_mem op hop₂, hs₂⟩

end InvariantLemmas

end FallibleVec

namespace FallibleVec

/-- C1: for every buffer, valid range `s..e` and replacement source, a
successful `try_splice_in` yields `B[0:s] ++ R ++ B[e:]` in order; splicing a
range with the buffer's own elements of that range leaves the contents
unchanged; and on `[1,2,3,4,5]`, `splice(2..4, [10,11,12])` yields
`[1,2,10,11,12,5]` and a following `splice(1..3, [20])` yields
`[1,20,11,12,5]`. -/
theorem claim_C1_splice_contents :
    (∀ (T : Type) (canAlloc : Nat → Bool) (b : Buf T) (s e : Nat) (it : It T)
        (res : Buf T), s ≤ e → e ≤ b.data.length →
        trySpliceIn canAlloc b s e it = .ok res →
        res.data = b.data.take s ++ it.yields ++ b.data.drop e) ∧
    (∀ (T : Type) (canAlloc : Nat → Bool) (b : Buf T) (s e : Nat) (it : It T)
        (res : Buf T), s ≤ e → e ≤ b.data.length →
        it.yields = (b.data.take e).drop s →
        trySpliceIn canAlloc b s e it = .ok res → res.data = b.data) ∧
    trySpliceIn (fun _ => true) (⟨[1,2,3,4,5], 5⟩ : Buf Nat) 2 4 (listIt [10,11,12]) =
      .ok ⟨[1,2,10,11,12,5], 10⟩ ∧
    trySpliceIn (fun _ => true) (⟨[1,2,10,11,12,5], 10⟩ : Buf Nat) 1 3 (listIt [20]) =
      .ok ⟨[1,20,11,12,5], 10⟩ := by
  refine ⟨?_, ?_, rfl, rfl⟩
  · intro T canAlloc b s e it res hse hel h
    exact (trySpliceIn_ok_inv hse hel h).1
  · intro T canAlloc b s e it res hse hel hy h
    have hd := (trySpliceIn_ok_inv hse hel h).1
    rw [hy] at hd
    have h2 : (b.data.take e).take s = b.data.take s := by
      rw [List.take_take]
      congr 1
      omega
    have h1 : b.data.take s ++ (b.data.take e).drop s = b.data.take e := by
      rw [← h2]
      exact List.take_append_drop s (b.data.take e)
    rw [hd, h1, List.take_append_drop]

/-- Witness for C1 at the spec's scenario: splicing `[10,11,12]` into
`[1,2,3,4,5]` over `2..4` with an always-succeeding allocator produces
exactly the prefix, replacement and suffix concatenation. -/
theorem claim_C1_splice_contents_witness :
    ([1,2,10,11,12,5] : List Nat) =
      ([1,2,3,4,5] : List Nat).take 2 ++ [10,11,12] ++ ([1,2,3,4,5] : List Nat).drop 4 :=
  claim_C1_splice_contents.1 Nat (fun _ => true) ⟨[1,2,3,4,5], 5⟩ 2 4
    (listIt [10,11,12]) ⟨[1,2,10,11,12,5], 10⟩ (by decide) (by decide) rfl

/-- C2: after any sequence of operations on a well-formed buffer — observing
the state each operation leaves whichever way it ends, so in particular after
any sequence of successful operations and also immediately after an
interruption — `length <= capacity` holds and every element of `[0, length)`
is a caller-supplied value: an element of the initial buffer or a value
supplied by one of the operations.  In this value-level embedding slots hold
whole elements by construction, so uninitialized, partially-constructed or
destroyed-but-counted slots cannot be expressed as states at all; the
theorem captures the length invariant and the provenance of every slot. -/
theorem claim_C2_invariant : ∀ (T : Type) (canAlloc : Nat → Bool) (b : Buf T)
    (ops : List (Op T)), b.wf →
    (applySeq canAlloc b ops).wf ∧
      ∀ x ∈ (applySeq canAlloc b ops).data, x ∈ b.data ∨ ∃ op ∈ ops, op.supplies x := by
  intro T canAlloc b ops hwf
  exact applySeq_wf_mem canAlloc ops b hwf

/-- Witness for C2: a push followed by an insert on `[1]` keeps the buffer
well-formed, with every element coming from the start state or an operation. -/
theorem claim_C2_invariant_witness :
    (applySeq (fun _ => true) (⟨[1], 1⟩ : Buf Nat) [Op.push 2, Op.insert 1 9]).wf ∧
      ∀ x ∈ (applySeq (fun _ => true) (⟨[1], 1⟩ : Buf Nat) [Op.push 2, Op.insert 1 9]).data,
        x ∈ [1] ∨ ∃ op ∈ [Op.push 2, Op.insert 1 9], op.supplies x :=
  claim_C2_invariant Nat (fun _ => true) ⟨[1], 1⟩ [Op.push 2, Op.insert 1 9] (by decide)

/-- C3: if producing the k-th element raises an interruption — the iterator's
`next()` during `try_extend`, the clone call during `try_extend_from_slice`,
or the generator call during `try_resize_with` — then exactly the elements
produced before it are appended to the buffer, and the interruption
propagates unchanged. -/
theorem claim_C3_prefix_commit :
    (∀ (T : Type) (b : Buf T) (it : It T), it.onEnd = .panicEnd →
      ∃ c, tryExtend (fun _ => true) b it =
        .panicked .interruption ⟨b.data ++ it.yields, c⟩) ∧
    (∀ (T : Type) (b : Buf T) (cf : Nat → T → Option T) (pre post vs : List T) (x : T),
      clonesTo cf 0 pre vs → cf pre.length x = none →
      ∃ c, tryExtendFromSlice (fun _ => true) cf b (pre ++ x :: post) =
        .panicked .interruption ⟨b.data ++ vs, c⟩) ∧
    (∀ (T : Type) (b : Buf T) (n : Nat) (f : Nat → Option T) (vs : List T),
      b.data.length < n → producesTo f 0 vs → vs.length < n - b.data.length →
      f vs.length = none →
      ∃ c, tryResizeWith (fun _ => true) b n f =
        .panicked .interruption ⟨b.data ++ vs, c⟩) := by
  refine ⟨?_, ?_, ?_⟩
  · intro T b it hoe
    obtain ⟨b₁, hr⟩ := tryReserve_true_some b (it.hintAt 0)
    obtain ⟨hd₁, hc₁, _⟩ := tryReserve_some_inv hr
    obtain ⟨c, _, hloop⟩ := extendPushLoop_true_panicEnd it.yields b₁
    refine ⟨c, ?_⟩
    unfold tryExtend
    rw [hr]
    dsimp only
    rw [hoe, hloop, hd₁]
  · intro T b cf pre post vs x hcl hnone
    obtain ⟨b₁, hr⟩ := tryReserve_true_some b (pre ++ x :: post).length
    obtain ⟨hd₁, _, _⟩ := tryReserve_some_inv hr
    refine ⟨b₁.cap, ?_⟩
    unfold tryExtendFromSlice
    rw [hr]
    dsimp only
    have hloop := @efsLoop_panicAt T cf x post pre vs 0 b₁.data b₁.cap hcl
      (by rw [Nat.zero_add]; exact hnone)
    rw [hloop, hd₁]
  · intro T b n f vs hn hp hlen hnone
    obtain ⟨b₁, hr⟩ := tryReserve_true_some b (n - b.data.length)
    obtain ⟨hd₁, _, _⟩ := tryReserve_some_inv hr
    refine ⟨b₁.cap, ?_⟩
    unfold tryResizeWith
    rw [if_neg (by omega), if_pos hn, hr]
    dsimp only
    have hloop := @fillNLoop_panicAt T f vs (n - b.data.length) 0 b₁.data b₁.cap hp hlen
      (by rw [Nat.zero_add]; exact hnone)
    rw [hloop, hd₁]

/-- Witness for C3: an iterator that panics after yielding `[2,3]`, a clone
that panics on its second call, and a generator that panics on its third call
each commit exactly the prefix produced before the fault. -/
theorem claim_C3_prefix_commit_witness :
    (∃ c, tryExtend (fun _ => true) (⟨[1], 1⟩ : Buf Nat)
        ⟨[2,3], .panicEnd, fun _ => 0⟩ = .panicked .interruption ⟨[1] ++ [2,3], c⟩) ∧
    (∃ c, tryExtendFromSlice (fun _ => true)
        (fun j t => if j = 0 then some t else none) (⟨[], 0⟩ : Buf Nat)
        ([5] ++ 6 :: []) = .panicked .interruption ⟨[] ++ [5], c⟩) ∧
    (∃ c, tryResizeWith (fun _ => true) (⟨[], 0⟩ : Buf Nat) 3
        (fun j => if j < 2 then some j else none) =
        .panicked .interruption ⟨[] ++ [0, 1], c⟩) :=
  ⟨claim_C3_prefix_commit.1 Nat ⟨[1], 1⟩ ⟨[2,3], .panicEnd, fun _ => 0⟩ rfl,
   claim_C3_prefix_commit.2.1 Nat ⟨[], 0⟩ (fun j t => if j = 0 then some t else none)
     [5] [] [5] 6 ⟨5, [], rfl, rfl, rfl⟩ rfl,
   claim_C3_prefix_commit.2.2 Nat ⟨[], 0⟩ 3 (fun j => if j < 2 then some j else none)
     [0, 1] (by decide) ⟨rfl, rfl, trivial⟩ (by decide) rfl⟩

/-- C4 counterexample: with an allocator that refuses every request,
`try_insert` at index 1 on an empty buffer — an out-of-bounds index — returns
`AllocationError` instead of panicking, because `move_tail` performs its
one-slot reserve before the index is ever used. -/
theorem claim_C4_counterexample :
    ([] : List Nat).length < 1 ∧
      tryInsert (fun _ => false) (⟨[], 0⟩ : Buf Nat) 1 7 = .allocErr ⟨[], 0⟩ :=
  ⟨by decide, rfl⟩

/-- C4 (amended): for every buffer and index with `index > length`,
`try_insert` never returns `Ok` and never alters the contents: it panics with
a fatal contract error when the initial one-slot reserve succeeds, but when
that reserve fails it returns `AllocationError` with the buffer unchanged
(the reserve is attempted before the index is checked). -/
theorem claim_C4_insert_oob : ∀ (T : Type) (canAlloc : Nat → Bool) (b : Buf T)
    (i : Nat) (x : T), b.data.length < i →
    (∀ res, tryInsert canAlloc b i x ≠ .ok res) ∧
    ((∃ c, tryInsert canAlloc b i x = .panicked .contract ⟨b.data, c⟩) ∨
      tryInsert canAlloc b i x = .allocErr b) := by
  intro T canAlloc b i x hlt
  unfold tryInsert
  cases hmv : moveTail canAlloc b i 1 with
  | failed =>
    refine ⟨?_, Or.inr rfl⟩
    intro res h
    cases h
  | oob c =>
    refine ⟨?_, Or.inl ⟨c, rfl⟩⟩
    intro res h
    cases h
  | moved b' =>
    obtain ⟨_, _, _, hbi⟩ := moveTail_moved_inv hmv
    omega

/-- Witness for amended C4: inserting at index 1 into an empty buffer with an
always-succeeding allocator cannot return `Ok` and ends in a contract panic
or an allocation error with the contents untouched. -/
theorem claim_C4_insert_oob_witness :
    (∀ res, tryInsert (fun _ => true) (⟨[], 0⟩ : Buf Nat) 1 7 ≠ .ok res) ∧
    ((∃ c, tryInsert (fun _ => true) (⟨[], 0⟩ : Buf Nat) 1 7 =
        .panicked .contract ⟨[], c⟩) ∨
      tryInsert (fun _ => true) (⟨[], 0⟩ : Buf Nat) 1 7 = .allocErr ⟨[], 0⟩) :=
  claim_C4_insert_oob Nat (fun _ => true) ⟨[], 0⟩ 1 7 (by decide)

/-- C5: if `try_splice_in` returns `AllocationError` — possible only from the
reserve of the known-remainder phase or from the unbounded-remainder phase —
the buffer holds exactly what the completed earlier phases produced: the
overwrite-phase result (range replaced by the first `e - s` yields), or that
plus the `lower_bound` elements filled by the known-remainder phase. -/
theorem claim_C5_splice_alloc_failure : ∀ (T : Type) (canAlloc : Nat → Bool)
    (b : Buf T) (s e : Nat) (it : It T) (bb : Buf T), s ≤ e → e ≤ b.data.length →
    trySpliceIn canAlloc b s e it = .allocErr bb →
    bb.data = b.data.take s ++ it.yields.take (e - s) ++ b.data.drop e ∨
      bb.data = b.data.take s ++ it.yields.take ((e - s) + it.hintAt (e - s)) ++
        b.data.drop e := by
  intro T canAlloc b s e it bb hse hel h
  exact (trySpliceIn_allocErr_inv hse hel h).1

/-- Witness for C5: an allocator refusing regions above 5 slots makes the
known-remainder reserve fail, leaving exactly the overwrite-phase result
`[1,2,10,11,5]`. -/
theorem claim_C5_witness :
    ([1,2,10,11,5] : List Nat) =
        ([1,2,3,4,5] : List Nat).take 2 ++ [10,11,12].take 2 ++
          ([1,2,3,4,5] : List Nat).drop 4 ∨
      ([1,2,10,11,5] : List Nat) =
        ([1,2,3,4,5] : List Nat).take 2 ++
          [10,11,12].take (2 + (listIt [10,11,12]).hintAt 2) ++
          ([1,2,3,4,5] : List Nat).drop 4 :=
  claim_C5_splice_alloc_failure Nat (fun n => decide (n ≤ 5)) ⟨[1,2,3,4,5], 5⟩ 2 4
    (listIt [10,11,12]) ⟨[1,2,10,11,5], 5⟩ (by decide) (by decide) rfl

/-- C6: a replacement source reporting no lower-bound hint (collect-then-
relocate path) and one reporting its full length (direct-fill path), yielding
the same element values, produce identical final contents whenever both
splices succeed. -/
theorem claim_C6_hint_equivalence : ∀ (T : Type) (c₁ c₂ : Nat → Bool) (b : Buf T)
    (s e : Nat) (ys : List T) (r₁ r₂ : Buf T), s ≤ e → e ≤ b.data.length →
    trySpliceIn c₁ b s e ⟨ys, .exhaust, fun _ => 0⟩ = .ok r₁ →
    trySpliceIn c₂ b s e ⟨ys, .exhaust, fun k => ys.length - k⟩ = .ok r₂ →
    r₁.data = r₂.data := by
  intro T c₁ c₂ b s e ys r₁ r₂ hse hel h₁ h₂
  have e₁ := (trySpliceIn_ok_inv hse hel h₁).1
  have e₂ := (trySpliceIn_ok_inv hse hel h₂).1
  rw [e₁, e₂]

/-- Witness for C6: the zero-hint and full-hint splices of `[10,11,12]` into
`[1,2,3,4,5]` over `2..4` both succeed and agree. -/
theorem claim_C6_witness :
    trySpliceIn (fun _ => true) (⟨[1,2,3,4,5], 5⟩ : Buf Nat) 2 4
        ⟨[10,11,12], .exhaust, fun _ => 0⟩ = .ok ⟨[1,2,10,11,12,5], 10⟩ ∧
      trySpliceIn (fun _ => true) (⟨[1,2,3,4,5], 5⟩ : Buf Nat) 2 4
        ⟨[10,11,12], .exhaust, fun k => [10,11,12].length - k⟩ =
          .ok ⟨[1,2,10,11,12,5], 10⟩ ∧
      ([1,2,10,11,12,5] : List Nat) = [1,2,10,11,12,5] :=
  ⟨rfl, rfl,
    claim_C6_hint_equivalence Nat (fun _ => true) (fun _ => true) ⟨[1,2,3,4,5], 5⟩
      2 4 [10,11,12] ⟨[1,2,10,11,12,5], 10⟩ ⟨[1,2,10,11,12,5], 10⟩
      (by decide) (by decide) rfl rfl⟩

/-- C7: with an honest clone, `try_resize` truncates to the first `n` elements
when shrinking and cannot fail then; growing appends exactly `n - L` copies of
the given value on success (and does succeed when the allocator cooperates);
and resizing to the current length changes nothing. -/
theorem claim_C7_resize : ∀ (T : Type) (canAlloc : Nat → Bool) (b : Buf T)
    (n : Nat) (item : T),
    (n < b.data.length →
      tryResize canAlloc (fun _ t => some t) b n item = .ok ⟨b.data.take n, b.cap⟩) ∧
    (b.data.length < n → ∀ res,
      tryResize canAlloc (fun _ t => some t) b n item = .ok res →
        res.data = b.data ++ List.replicate (n - b.data.length) item) ∧
    (b.data.length < n → ∃ c,
      tryResize (fun _ => true) (fun _ t => some t) b n item =
        .ok ⟨b.data ++ List.replicate (n - b.data.length) item, c⟩) ∧
    (n = b.data.length → tryResize canAlloc (fun _ t => some t) b n item = .ok b) := by
  intro T canAlloc b n item
  refine ⟨?_, ?_, ?_, ?_⟩
  · intro h1
    unfold tryResize
    rw [if_pos h1]
  · intro h2 res h
    unfold tryResize at h
    rw [if_neg (by omega), if_pos h2] at h
    cases hr : tryReserve canAlloc b (n - b.data.length) with
    | none => rw [hr] at h; cases h
    | some b₁ =>
      rw [hr] at h
      dsimp only at h
      obtain ⟨hd₁, _, _⟩ := tryReserve_some_inv hr
      rw [fillNLoop_ok_of_produces (producesTo_replicate item (n - b.data.length) 0)
        (by simp)] at h
      cases h
      simp only [hd₁]
  · intro h2
    obtain ⟨b₁, hr⟩ := tryReserve_true_some b (n - b.data.length)
    obtain ⟨hd₁, _, _⟩ := tryReserve_some_inv hr
    refine ⟨b₁.cap, ?_⟩
    unfold tryResize
    rw [if_neg (by omega), if_pos h2, hr]
    dsimp only
    rw [fillNLoop_ok_of_produces (producesTo_replicate item (n - b.data.length) 0)
      (by simp), hd₁]
  · intro h3
    unfold tryResize
    rw [if_neg (by omega), if_neg (by omega)]

/-- Witness for C7: shrinking `[1,2,3,4]` to 2 truncates without allocation,
and growing `[1]` to 3 with value 7 appends two copies. -/
theorem claim_C7_resize_witness :
    tryResize (fun _ => false) (fun _ t => some t) (⟨[1,2,3,4], 4⟩ : Buf Nat) 2 0 =
        .ok ⟨([1,2,3,4] : List Nat).take 2, 4⟩ ∧
      ∃ c, tryResize (fun _ => true) (fun _ t => some t) (⟨[1], 2⟩ : Buf Nat) 3 7 =
        .ok ⟨[1] ++ List.replicate 2 7, c⟩ :=
  ⟨(claim_C7_resize Nat (fun _ => false) ⟨[1,2,3,4], 4⟩ 2 0).1 (by decide),
   (claim_C7_resize Nat (fun _ => true) ⟨[1], 2⟩ 3 7).2.2.1 (by decide)⟩

/-- C8: `try_with_capacity 10` yields length 0 and capacity exactly 10; any
ten or fewer pushes then succeed with no allocator involvement at all,
keeping capacity exactly 10; an eleventh push on the full buffer succeeds
with an always-cooperating allocator, yielding the eleven items and a
capacity of at least 11. -/
theorem claim_C8_with_capacity :
    (∀ (T : Type), tryWithCapacity T (fun _ => true) 10 = some ⟨[], 10⟩) ∧
    (∀ (T : Type) (canAlloc : Nat → Bool) (items : List T), items.length ≤ 10 →
      extendPushLoop canAlloc .exhaust items ⟨[], 10⟩ = .ok ⟨items, 10⟩) ∧
    (∀ (T : Type) (items : List T) (x : T), items.length = 10 →
      ∃ c, tryPush (fun _ => true) ⟨items, 10⟩ x = .ok ⟨items ++ [x], c⟩ ∧ 11 ≤ c) := by
  refine ⟨?_, ?_, ?_⟩
  · intro T
    rfl
  · intro T canAlloc items hlen
    have hng := @extendPushLoop_noGrow T canAlloc items ⟨[], 10⟩ (by simpa using hlen)
    simpa using hng
  · intro T items x hlen
    obtain ⟨b₂, hb₂⟩ := tryReserve_true_some (⟨items, 10⟩ : Buf T) 1
    obtain ⟨hd, hc, hl⟩ := tryReserve_some_inv hb₂
    refine ⟨b₂.cap, ?_, ?_⟩
    · unfold tryPush
      rw [hb₂]
      dsimp only
      rw [hd]
    · simp at hl
      omega

/-- Witness for C8: ten pushes into the capacity-10 buffer succeed even with
an allocator that refuses everything, and the eleventh push reallocates to a
capacity of at least 11. -/
theorem claim_C8_with_capacity_witness :
    extendPushLoop (fun _ => false) ItEnd.exhaust [0,1,2,3,4,5,6,7,8,9]
        (⟨[], 10⟩ : Buf Nat) = .ok ⟨[0,1,2,3,4,5,6,7,8,9], 10⟩ ∧
      ∃ c, tryPush (fun _ => true) (⟨[0,1,2,3,4,5,6,7,8,9], 10⟩ : Buf Nat) 99 =
        .ok ⟨[0,1,2,3,4,5,6,7,8,9] ++ [99], c⟩ ∧ 11 ≤ c :=
  ⟨claim_C8_with_capacity.2.1 Nat (fun _ => false) [0,1,2,3,4,5,6,7,8,9] (by decide),
   claim_C8_with_capacity.2.2 Nat [0,1,2,3,4,5,6,7,8,9] 99 (by decide)⟩

/-- C9: in the known-remainder phase, an iterator whose reported lower bound
exceeds what it actually has left makes `try_splice_in` unwrap `None` and
panic (with the overwritten prefix and all yields committed, the relocated
tail leaked); and conversely that panic can only arise when the reported
lower bound exceeds the elements remaining after the overwrite phase. -/
theorem claim_C9_hint_overrun :
    (∀ (T : Type) (b : Buf T) (s e : Nat) (it : It T), s ≤ e → e ≤ b.data.length →
      it.onEnd = .exhaust → e - s ≤ it.yields.length →
      it.yields.length - (e - s) < it.hintAt (e - s) →
      ∃ c, trySpliceIn (fun _ => true) b s e it =
        .panicked .unwrapNone ⟨b.data.take s ++ it.yields, c⟩) ∧
    (∀ (T : Type) (canAlloc : Nat → Bool) (b : Buf T) (s e : Nat) (it : It T)
        (bb : Buf T), trySpliceIn canAlloc b s e it = .panicked .unwrapNone bb →
      it.onEnd = .exhaust ∧ e - s ≤ it.yields.length ∧
        it.yields.length - (e - s) < it.hintAt (e - s)) := by
  constructor
  · intro T b s e it hse hel hoe hy hgt
    exact trySpliceIn_unwrap_fwd hse hel hoe hy hgt
  · intro T canAlloc b s e it bb h
    obtain ⟨hoe, _, _, hy, hgt⟩ := trySpliceIn_unwrap_inv h
    exact ⟨hoe, hy, hgt⟩

/-- Witness for C9: an iterator with one element left after the overwrite
phase but a reported lower bound of 5 makes the splice panic on `unwrap`. -/
theorem claim_C9_hint_overrun_witness :
    ∃ c, trySpliceIn (fun _ => true) (⟨[1,2,3,4,5], 5⟩ : Buf Nat) 2 4
        ⟨[10,11,12], .exhaust, fun _ => 5⟩ =
      .panicked .unwrapNone ⟨[1,2] ++ [10,11,12], c⟩ :=
  claim_C9_hint_overrun.1 Nat ⟨[1,2,3,4,5], 5⟩ 2 4 ⟨[10,11,12], .exhaust, fun _ => 5⟩
    (by decide) (by decide) rfl (by decide) (by decide)

/-- C10: constructing a repeated-item vector with count 0 returns `Ok` with an
empty, capacity-0 vector for every allocator — in particular for one refusing
every request, so no reserve is consulted and `AllocationError` is
impossible — and the supplied item is not stored. -/
theorem claim_C10_repeat_zero : ∀ (T : Type) (canAlloc : Nat → Bool)
    (cf : Nat → T → Option T) (item : T),
    tryNewRepeatItem canAlloc cf item 0 = .ok ⟨[], 0⟩ := by
  intro T canAlloc cf item
  rfl

end FallibleVec
